import Mathlib

/-!
Shallow embedding of `insteon_mqtt/db/Device.py` (the `Device` all-link
database class) and of the external collaborators it uses, together with
proofs about the add/delete orchestration, the local-insert invariants,
the pending-operation queue, and the JSON round trip.

Python dictionaries are modelled as insertion-ordered association lists
(`List (κ × α)`): inserting an existing key overwrites the stored value in
place, inserting a fresh key appends at the end, matching CPython `dict`
semantics.  Python sets of memory locations are modelled as duplicate-free
lists.  Memory locations are `Int` (Python integers are unbounded and the
growth strategy subtracts 8).
-/

/-- Association-list keys, in insertion order (models `dict.keys()`). -/
def alKeys {κ α : Type} (l : List (κ × α)) : List κ :=
  l.map Prod.fst

/-- Association-list lookup (models `dict.get(k)` / `dict[k]`). -/
def alLookup {κ α : Type} [DecidableEq κ] (l : List (κ × α)) (k : κ) : Option α :=
  (l.find? (fun p => decide (p.1 = k))).map Prod.snd

/-- Association-list insertion (models `dict[k] = v`): overwrite in place if
the key is present (the first occurrence — dict key lists are duplicate
free, so this is the only occurrence), append at the end otherwise. -/
def alInsert {κ α : Type} [DecidableEq κ] (l : List (κ × α)) (k : κ) (v : α) :
    List (κ × α) :=
  match l with
  | [] => [(k, v)]
  | p :: rest => if p.1 = k then (k, v) :: rest else p :: alInsert rest k v

/-- Association-list key removal (models `dict.pop(k)`). -/
def alErase {κ α : Type} [DecidableEq κ] (l : List (κ × α)) (k : κ) : List (κ × α) :=
  l.filter (fun p => decide (p.1 ≠ k))

/-- Duplicate-free-list insertion (models `set.add(k)`). -/
def setInsert {κ : Type} [DecidableEq κ] (l : List κ) (k : κ) : List κ :=
  if k ∈ l then l else l ++ [k]

/-- Minimum of a list of integers (models Python `min` on a set; the `[]`
case corresponds to the `ValueError` Python would raise and is guarded at
every call site). -/
def minKeys : List Int → Int
  | [] => 0
  | x :: xs => xs.foldl min x

/-- Maximum of a list of integers (models Python `max` on a set). -/
def maxKeys : List Int → Int
  | [] => 0
  | x :: xs => xs.foldl max x

/-- Link-record control flags, mirroring `Msg.DbFlags(in_use,
is_controller, is_last_rec)`. -/
structure DbFlags where
  in_use : Bool
  is_controller : Bool
  is_last_rec : Bool
deriving DecidableEq, Repr

/-- Modelled from the spec: the external `DeviceEntry` record (module
`db.DeviceEntry`, not part of the sources).  Per the spec's data model it
identifies a remote peer (`addr`), a group number, a slot/memory address
(`mem_loc`, the natural key), the flag block, and a fixed-size payload
(`data`).  Peers are abstracted to numeric identifiers. -/
structure DeviceEntry where
  addr : Nat
  group : Nat
  mem_loc : Int
  db_flags : DbFlags
  data : List Nat
deriving DecidableEq, Repr

/-- Modelled from the spec: `DeviceEntry.update_from(addr, group,
is_controller, data)` repurposes an entry in place — "overwrite
peer/group/role/payload, flip in-use true" — leaving the slot address and
the last-record flag unchanged. -/
def DeviceEntry.update_from (e : DeviceEntry) (a g : Nat) (ic : Bool)
    (d : List Nat) : DeviceEntry :=
  { e with addr := a, group := g, data := d,
           db_flags := { e.db_flags with is_controller := ic, in_use := true } }

/-- An outbound extended write, mirroring `Msg.OutExtended.direct(self.addr,
0x2f, 0x00, ext_data)`.  The wire encoding of the entry (`to_bytes`) is an
external collaborator, so the message carries the entry itself. -/
structure OutMsg where
  to_addr : Nat
  cmd1 : Nat
  cmd2 : Nat
  entry : DeviceEntry
deriving DecidableEq, Repr

/-- Modelled from the spec: the external `handler.DeviceDbModify` exchange
handler.  It holds the entry whose write was issued and, via `add_update`,
an optional chained second write "to be sent automatically once the first
is acknowledged"; on confirmed acknowledgment of a write it commits that
write's entry to the record store via the local-insert path and persists. -/
structure HandlerData where
  entry : DeviceEntry
  followup : Option (OutMsg × DeviceEntry)
deriving DecidableEq, Repr

/-- An element of the `_pending` queue: the dummy `True` marker pushed when
an operation starts, or a queued `functools` continuation of
`_add_on_device` / `_delete_on_device` (tagged with a request id so that
traces can name requests). -/
inductive QItem
  | marker
  | contAdd (id : Nat) (a g : Nat) (ic : Bool) (d : List Nat)
  | contDel (id : Nat) (e : DeviceEntry)
deriving DecidableEq, Repr

/-- The in-memory state of `db.Device`: delta counter, used entries by
memory location, unused entries by memory location, the controller group
index, the `_mem_locs` set and the `_pending` queue.  The save path and
file persistence are external side effects and carry no state relevant to
the claims. -/
structure Device where
  addr : Nat
  delta : Option Int
  entries : List (Int × DeviceEntry)
  unused : List (Int × DeviceEntry)
  groups : List (Nat × List DeviceEntry)
  mem_locs : List Int
  pending : List QItem
deriving DecidableEq, Repr

/-- `Device.__init__`: everything empty, delta unknown. -/
def Device.init (a : Nat) : Device :=
  ⟨a, none, [], [], [], [], []⟩

/-- The removal loop in `add_entry`'s not-in-use branch: delete the first
responder whose address matches, then break. -/
def removeFirstAddr (rs : List DeviceEntry) (a : Nat) : List DeviceEntry :=
  match rs with
  | [] => []
  | r :: rest => if r.addr = a then rest else r :: removeFirstAddr rest a

/-- `Device.add_entry`: local insertion without touching the remote device.
In-use entries go to `entries` (and controllers are appended to their group
list unless already present); not-in-use entries go to `unused` (and a
matching controller is removed from its group list if the group key
exists).  Both branches record the memory location in `_mem_locs`. -/
def Device.add_entry (db : Device) (e : DeviceEntry) : Device :=
  if e.db_flags.in_use = true then
    let db1 : Device :=
      { db with entries := alInsert db.entries e.mem_loc e,
                mem_locs := setInsert db.mem_locs e.mem_loc }
    if e.db_flags.is_controller = true then
      let rs := (alLookup db1.groups e.group).getD []
      if e ∈ rs then db1
      else { db1 with groups := alInsert db1.groups e.group (rs ++ [e]) }
    else db1
  else
    let db1 : Device :=
      { db with unused := alInsert db.unused e.mem_loc e,
                mem_locs := setInsert db.mem_locs e.mem_loc }
    if e.db_flags.is_controller = true ∧ e.group ∈ alKeys db1.groups then
      let rs := (alLookup db1.groups e.group).getD []
      { db1 with groups := alInsert db1.groups e.group (removeFirstAddr rs e.addr) }
    else db1

/-- `Device.find`: linear scan of `entries.values()` for the first entry
matching address, group and controller role. -/
def Device.find (db : Device) (a g : Nat) (ic : Bool) : Option DeviceEntry :=
  (db.entries.map Prod.snd).find? (fun e =>
    decide (e.addr = a) && decide (e.group = g) && (e.db_flags.is_controller == ic))

/-- `Device.find_mem_loc`: lookup of `entries` by memory location. -/
def Device.find_mem_loc (db : Device) (k : Int) : Option DeviceEntry :=
  alLookup db.entries k

/-- `Device.find_group`: the group index's list, or empty. -/
def Device.find_group (db : Device) (g : Nat) : List DeviceEntry :=
  (alLookup db.groups g).getD []

/-- The JSON document shape produced by `to_json` and consumed by
`from_json`: address, delta, the used entry list and the unused entry list
(entry (de)serialization itself is the external `DeviceEntry` class). -/
structure DbDoc where
  address : Nat
  delta : Option Int
  used : List DeviceEntry
  unused : List DeviceEntry
deriving DecidableEq, Repr

/-- `Device.to_json`: list the used and unused entry values. -/
def Device.to_json (db : Device) : DbDoc :=
  ⟨db.addr, db.delta, db.entries.map Prod.snd, db.unused.map Prod.snd⟩

/-- `Device.from_json`: build a fresh `Device`, set the delta, then insert
every used entry and every unused entry through `add_entry`. -/
def Device.from_json (doc : DbDoc) : Device :=
  let obj := Device.init doc.address
  let obj := { obj with delta := doc.delta }
  let obj := doc.used.foldl Device.add_entry obj
  doc.unused.foldl Device.add_entry obj

/-- Result of `_add_using_unused`: the post-send local state, the issued
message and the exchange handler (`none` corresponds to the `KeyError`
Python's `max`/`pop` would raise on an empty `unused`, which the caller
guards against). -/
def Device.add_using_unused (db : Device) (a g : Nat) (ic : Bool)
    (d : List Nat) : Option (Device × OutMsg × HandlerData) :=
  match alLookup db.unused (maxKeys (alKeys db.unused)) with
  | none => none
  | some e0 =>
    let e := e0.update_from a g ic d
    let db1 : Device :=
      { db with unused := alErase db.unused (maxKeys (alKeys db.unused)) }
    some (db1, ⟨db.addr, 0x2f, 0x00, e⟩, ⟨e, none⟩)

/-- Result of `_add_using_new`: either a crash (`min` of an empty
`_mem_locs` raises `ValueError`), the defensive early `return` when the
minimum location has no entry, or the issued first write plus the handler
carrying the chained rewrite of the previous last record. -/
inductive NewResult
  | crash
  | aborted
  | started (m : OutMsg) (h : HandlerData)
deriving DecidableEq, Repr

/-- `_add_using_new`: find the entry at the minimum memory location, build
the new entry 8 bytes below it with in-use and last-record set, send it,
and chain (via `add_update`) the rewrite of the old last entry with its
last-record flag cleared.  No local record-store state is modified. -/
def Device.add_using_new (db : Device) (a g : Nat) (ic : Bool)
    (d : List Nat) : NewResult :=
  if db.mem_locs = [] then .crash
  else
    match db.find_mem_loc (minKeys db.mem_locs) with
    | none => .aborted
    | some last =>
      let e : DeviceEntry := ⟨a, g, last.mem_loc - 8, ⟨true, ic, true⟩, d⟩
      let new_last : DeviceEntry :=
        { last with db_flags := { last.db_flags with is_last_rec := false } }
      .started ⟨db.addr, 0x2f, 0x00, e⟩
        ⟨e, some (⟨db.addr, 0x2f, 0x00, new_last⟩, new_last)⟩

/-- Outcome of a call into `_add_on_device` / `add_on_device` /
`_delete_on_device`.  `duplicate` records the synchronous
`on_done(True, "Entry already exists", entry)` call; `assertError` is the
`assert len(self.entries)` failure; `sent` carries the state after the
message was handed to `protocol.send` (pre-acknowledgment) together with
that message and its handler; `aborted` is the defensive growth-path
`return`; `crash` is an uncaught Python exception; `queued` is the
busy-path append to `_pending`. -/
inductive AddResult
  | duplicate (db : Device) (success : Bool) (msg : String) (e : DeviceEntry)
  | assertError (db : Device)
  | sent (db : Device) (m : OutMsg) (h : HandlerData)
  | aborted (db : Device)
  | crash (db : Device)
  | queued (db : Device)
deriving DecidableEq, Repr

/-- The trailing `if not self._pending: self._pending.append(True)` of
`_add_on_device` and `_delete_on_device`. -/
def pushMarker (db : Device) : Device :=
  if db.pending = [] then { db with pending := [QItem.marker] } else db

/-- `_add_on_device`: duplicate check, `assert len(self.entries)`, then the
reuse strategy when `unused` is non-empty, else the growth strategy; on the
normal paths the dummy marker is pushed onto an empty `_pending`. -/
def Device.add_on_device_impl (db : Device) (a g : Nat) (ic : Bool)
    (d : List Nat) : AddResult :=
  match db.find a g ic with
  | some e => .duplicate db true "Entry already exists" e
  | none =>
    if db.entries.length = 0 then .assertError db
    else if db.unused ≠ [] then
      match db.add_using_unused a g ic d with
      | none => .crash db
      | some (db1, m, h) => .sent (pushMarker db1) m h
    else
      match db.add_using_new a g ic d with
      | .crash => .crash db
      | .aborted => .aborted (pushMarker db)
      | .started m h => .sent (pushMarker db) m h

/-- `add_on_device` (public): run `_add_on_device` immediately when
`_pending` is empty, otherwise append the call as a continuation. -/
def Device.add_on_device (db : Device) (id : Nat) (a g : Nat) (ic : Bool)
    (d : List Nat) : AddResult :=
  if db.pending = [] then db.add_on_device_impl a g ic d
  else .queued { db with pending := db.pending ++ [QItem.contAdd id a g ic d] }

/-- `_delete_on_device`: copy the entry with in-use cleared, send the
modification message, push the marker.  No local state changes before
acknowledgment. -/
def Device.delete_on_device_impl (db : Device) (e : DeviceEntry) : AddResult :=
  let new_entry : DeviceEntry :=
    { e with db_flags := { e.db_flags with in_use := false } }
  .sent (pushMarker db) ⟨db.addr, 0x2f, 0x00, new_entry⟩ ⟨new_entry, none⟩

/-- Modelled from the spec: the entries the external `DeviceDbModify`
handler commits to the record store once the exchange (first write plus any
chained followup) is fully acknowledged. -/
def commitList (h : HandlerData) : List DeviceEntry :=
  h.entry :: (match h.followup with | none => [] | some p => [p.2])

/-- Modelled from the spec: applying an acknowledged exchange to the local
state — each confirmed write is inserted through the local-insert path. -/
def Device.commitAdd (db : Device) (h : HandlerData) : Device :=
  (commitList h).foldl Device.add_entry db

/-- Observable transport / callback events for the queue machine:
`send` is a call to `protocol.send`, `exchDone` is the transport reporting
an exchange (including any chained followup) fully finished, `onDone` is a
user `on_done` callback invocation. -/
inductive TraceEv
  | send (id : Nat) (m : OutMsg)
  | exchDone (id : Nat)
  | onDone (id : Nat) (success : Bool)
deriving DecidableEq, Repr

/-- Queue-machine state: the device plus the in-flight exchange (request
id and its handler), if any. -/
structure MState where
  db : Device
  inflight : Option (Nat × HandlerData)
deriving DecidableEq, Repr

/-- External stimuli driving the machine: an `add_on_device` call, a
`delete_on_device` call, or the transport reporting the in-flight exchange
complete. -/
inductive Stim
  | addReq (id : Nat) (a g : Nat) (ic : Bool) (d : List Nat)
  | delReq (id : Nat) (e : DeviceEntry)
  | complete
deriving DecidableEq, Repr

/-- Invoking a queued continuation (`self._pending[0]()` inside `done_cb`):
the continuation runs `_add_on_device` / `_delete_on_device` on the current
state; a successful start emits the send and becomes the in-flight
exchange. -/
def runContOf (db : Device) (q : QItem) : Device × List TraceEv × Option (Nat × HandlerData) :=
  match q with
  | .marker => (db, [], none)
  | .contAdd i a g ic d =>
    match db.add_on_device_impl a g ic d with
    | .sent db1 m h => (db1, [TraceEv.send i m], some (i, h))
    | .duplicate db1 su _ _ => (db1, [TraceEv.onDone i su], none)
    | .assertError db1 => (db1, [], none)
    | .aborted db1 => (db1, [], none)
    | .crash db1 => (db1, [], none)
    | .queued db1 => (db1, [], none)
  | .contDel i e =>
    match db.delete_on_device_impl e with
    | .sent db1 m h => (db1, [TraceEv.send i m], some (i, h))
    | _ => (db, [], none)

/-- One machine step.  A request either starts (send emitted, exchange in
flight) or is queued.  A completion commits the acknowledged writes, then
runs `done_cb`: pop the head of `_pending`; if the queue is still
non-empty invoke its head, otherwise fire the original `on_done`. -/
def stepStim (s : MState) (st : Stim) : MState × List TraceEv :=
  match st with
  | .addReq i a g ic d =>
    match s.db.add_on_device i a g ic d with
    | .sent db1 m h => (⟨db1, some (i, h)⟩, [TraceEv.send i m])
    | .duplicate db1 su _ _ => (⟨db1, s.inflight⟩, [TraceEv.onDone i su])
    | .queued db1 => (⟨db1, s.inflight⟩, [])
    | .assertError db1 => (⟨db1, s.inflight⟩, [])
    | .aborted db1 => (⟨db1, s.inflight⟩, [])
    | .crash db1 => (⟨db1, s.inflight⟩, [])
  | .delReq i e =>
    if s.db.pending = [] then
      match s.db.delete_on_device_impl e with
      | .sent db1 m h => (⟨db1, some (i, h)⟩, [TraceEv.send i m])
      | _ => (s, [])
    else
      (⟨{ s.db with pending := s.db.pending ++ [QItem.contDel i e] }, s.inflight⟩, [])
  | .complete =>
    match s.inflight with
    | none => (s, [])
    | some (i, h) =>
      let db1 := s.db.commitAdd h
      match db1.pending with
      | [] => (⟨db1, none⟩, [TraceEv.exchDone i])
      | _ :: rest =>
        let db2 : Device := { db1 with pending := rest }
        match rest with
        | [] => (⟨db2, none⟩, [TraceEv.exchDone i, TraceEv.onDone i true])
        | q :: _ =>
          let t := runContOf db2 q
          (⟨t.1, t.2.2⟩, TraceEv.exchDone i :: t.2.1)

/-- Run the machine over a stimulus list, collecting the event trace. -/
def runStims (s : MState) (l : List Stim) : MState × List TraceEv :=
  match l with
  | [] => (s, [])
  | st :: rest =>
    let t := stepStim s st
    let r := runStims t.1 rest
    (r.1, t.2 ++ r.2)

/-- Local insertion of a whole entry list into a fresh device, covering
every state reachable through the local-insert path. -/
def buildDb (n : Nat) (l : List DeviceEntry) : Device :=
  l.foldl Device.add_entry (Device.init n)

/-- A remote-mutation request: the argument tuple of an `add_on_device`
call or of a `delete_on_device` call. -/
inductive Req
  | add (a g : Nat) (ic : Bool) (d : List Nat)
  | del (e : DeviceEntry)
deriving DecidableEq, Repr

/-- Running a request's private implementation (`_add_on_device` or
`_delete_on_device`) on a state. -/
def runReq (db : Device) (r : Req) : AddResult :=
  match r with
  | .add a g ic d => db.add_on_device_impl a g ic d
  | .del e => db.delete_on_device_impl e

/-- The machine stimulus corresponding to issuing a request. -/
def Req.toStim (r : Req) (i : Nat) : Stim :=
  match r with
  | .add a g ic d => Stim.addReq i a g ic d
  | .del e => Stim.delReq i e

/-- The queued continuation (`functools` closure) for a request. -/
def Req.toCont (r : Req) (i : Nat) : QItem :=
  match r with
  | .add a g ic d => QItem.contAdd i a g ic d
  | .del e => QItem.contDel i e

/-- C1 counterexample input: one in-use (last-record) entry at location 16
and one unused entry at location 8, nothing pending. -/
def c1Db : Device :=
  ⟨5, none, [(16, ⟨9, 9, 16, ⟨true, false, true⟩, [0, 0, 0]⟩)],
    [(8, ⟨8, 8, 8, ⟨false, false, false⟩, [0, 0, 0]⟩)], [], [16, 8], []⟩

/-- State of `c1Db` right after `_add_using_unused` hands its message to
`protocol.send` — before any acknowledgment. -/
def c1Post : Device :=
  ⟨5, none, [(16, ⟨9, 9, 16, ⟨true, false, true⟩, [0, 0, 0]⟩)],
    [], [], [16, 8], [QItem.marker]⟩

def c1Msg : OutMsg := ⟨5, 47, 0, ⟨1, 1, 8, ⟨true, false, false⟩, []⟩⟩

def c1H : HandlerData := ⟨⟨1, 1, 8, ⟨true, false, false⟩, []⟩, none⟩

/-- C9 counterexample input: `_mem_locs` holds location 8 with no entry
stored there, `unused` empty, so the growth strategy's defensive branch
fires. -/
def c9Db : Device :=
  ⟨5, none, [(16, ⟨9, 9, 16, ⟨true, false, true⟩, [0, 0, 0]⟩)], [], [], [8, 16], []⟩

/-- The properties C5 asserts of a reuse-path add: a single write (no
chained followup) targeting the highest unused slot address, carrying the
requested peer/group/role/payload with in-use set, `unused` loses exactly
that slot at issue time, and the committed entry lands on a slot that was
a member of `unused` beforehand with no new slot address created. -/
def c5Concl (db : Device) (a g : Nat) (ic : Bool) (d : List Nat) : Prop :=
  ∃ db1 m h, db.add_on_device_impl a g ic d = AddResult.sent db1 m h ∧
    h.followup = none ∧ h.entry = m.entry ∧
    m.entry.mem_loc = maxKeys (alKeys db.unused) ∧
    m.entry.mem_loc ∈ alKeys db.unused ∧
    m.entry.addr = a ∧ m.entry.group = g ∧
    m.entry.db_flags.is_controller = ic ∧ m.entry.db_flags.in_use = true ∧
    m.entry.data = d ∧
    db1.unused = alErase db.unused (maxKeys (alKeys db.unused)) ∧
    db1.entries = db.entries ∧
    (db1.commitAdd h).mem_locs = db.mem_locs ∧
    alLookup (db1.commitAdd h).entries m.entry.mem_loc = some m.entry

/-- The properties C4 asserts of a growth-path add: the new entry sits one
record width (8) below the previous minimum of `knownSlots` with in-use
and is-last-record set; its write goes out first and the handler carries
the chained rewrite of the previous last-record entry with the flag
cleared; no local state changes before acknowledgment; and after the
handler commits both acknowledged writes exactly one entry carries
is-last-record and it sits at the new minimum slot address. -/
def c4Concl (db : Device) (a g : Nat) (ic : Bool) (d : List Nat) : Prop :=
  ∃ db1 m h last,
    db.add_on_device_impl a g ic d = AddResult.sent db1 m h ∧
    db.find_mem_loc (minKeys db.mem_locs) = some last ∧
    m.entry = ⟨a, g, minKeys db.mem_locs - 8, ⟨true, ic, true⟩, d⟩ ∧
    h.entry = m.entry ∧
    h.followup = some (⟨db.addr, 0x2f, 0x00,
        { last with db_flags := { last.db_flags with is_last_rec := false } }⟩,
      { last with db_flags := { last.db_flags with is_last_rec := false } }) ∧
    db1.entries = db.entries ∧ db1.unused = db.unused ∧
    db1.groups = db.groups ∧ db1.mem_locs = db.mem_locs ∧
    (db1.commitAdd h).entries.countP (fun p => p.2.db_flags.is_last_rec) = 1 ∧
    minKeys (db1.commitAdd h).mem_locs = minKeys db.mem_locs - 8 ∧
    alLookup (db1.commitAdd h).entries (minKeys db.mem_locs - 8) = some m.entry

/-- C4 witness database: a single in-use last-record entry at slot 0x0ff8. -/
def c4Db : Device :=
  ⟨3, none, [(0x0ff8, ⟨9, 9, 0x0ff8, ⟨true, false, true⟩, [0, 0, 0]⟩)], [], [],
    [0x0ff8], []⟩

/-- C2 counterexample input: the same slot address 8 inserted first as an
in-use entry, then as a not-in-use entry. -/
def c2Db : Device :=
  buildDb 5 [⟨1, 1, 8, ⟨true, false, false⟩, []⟩, ⟨1, 1, 8, ⟨false, false, false⟩, []⟩]

/-- The group-index invariant maintained by `add_entry`: every member of
a group list is an in-use controller entry for that group, and every
stored unused entry is not in use. -/
def groupsInv (db : Device) : Prop :=
  (∀ g rs, alLookup db.groups g = some rs →
    ∀ e ∈ rs, e.db_flags.is_controller = true ∧ e.group = g ∧
      e.db_flags.in_use = true) ∧
  (∀ p ∈ db.unused, p.2.db_flags.in_use = false)

/-- C3 counterexample input: a controller entry at slot 8 is inserted,
then overwritten at the same slot by a responder entry for the same
group. -/
def c3Db : Device :=
  buildDb 5 [⟨1, 1, 8, ⟨true, true, false⟩, []⟩, ⟨2, 1, 8, ⟨true, false, false⟩, []⟩]

/-- C7 counterexample input: a controller entry at slot 8, overwritten by
a responder at the same slot — the stale controller survives only in the
`groups` index. -/
def c7Db : Device :=
  buildDb 5 [⟨1, 1, 8, ⟨true, true, false⟩, []⟩, ⟨2, 1, 8, ⟨true, false, false⟩, []⟩]

/-- C7 witness database: one in-use entry and one unused entry with
coherent keys and flags. -/
def c7Wdb : Device :=
  ⟨7, some 4, [(16, ⟨9, 9, 16, ⟨true, true, true⟩, [0, 0, 0]⟩)],
    [(8, ⟨8, 8, 8, ⟨false, false, false⟩, [0, 0, 0]⟩)], [(9, [⟨9, 9, 16, ⟨true, true, true⟩, [0, 0, 0]⟩])], [16, 8], []⟩

/-- C6 witness database: one in-use entry plus two unused slots, so that
both queued adds start via the reuse path. -/
def c6Db : Device :=
  ⟨5, none, [(0x0ff8, ⟨9, 9, 0x0ff8, ⟨true, false, true⟩, [0, 0, 0]⟩)],
    [(0x0fe0, ⟨8, 8, 0x0fe0, ⟨false, false, false⟩, [0, 0, 0]⟩),
     (0x0fd0, ⟨7, 7, 0x0fd0, ⟨false, false, false⟩, [0, 0, 0]⟩)], [],
    [0x0ff8, 0x0fe0, 0x0fd0], []⟩

/-! General lemmas about the association-list and set models. -/

theorem mem_setInsert {κ : Type} [DecidableEq κ] (l : List κ) (k x : κ) :
    x ∈ setInsert l k ↔ x ∈ l ∨ x = k := by
  unfold setInsert
  split
  · rename_i hk
    constructor
    · exact fun h => Or.inl h
    · rintro (h | rfl) <;> assumption
  · simp [List.mem_append]

theorem setInsert_length {κ : Type} [DecidableEq κ] (l : List κ) (k : κ) :
    (setInsert l k).length ≤ l.length + 1 := by
  unfold setInsert
  split
  · omega
  · simp

theorem mem_alKeys_alInsert {κ α : Type} [DecidableEq κ] (l : List (κ × α))
    (k x : κ) (v : α) :
    x ∈ alKeys (alInsert l k v) ↔ x ∈ alKeys l ∨ x = k := by
  induction l with
  | nil => simp [alInsert, alKeys]
  | cons p rest ih =>
    by_cases h1 : p.1 = k
    · simp only [alInsert, if_pos h1, alKeys, List.map_cons, List.mem_cons]
      subst h1
      constructor
      · rintro (rfl | hx)
        · exact Or.inr rfl
        · exact Or.inl (Or.inr hx)
      · rintro ((rfl | hx) | rfl)
        · exact Or.inl rfl
        · exact Or.inr hx
        · exact Or.inl rfl
    · simp only [alInsert, if_neg h1, alKeys, List.map_cons, List.mem_cons]
      unfold alKeys at ih
      rw [ih]
      tauto

theorem alInsert_of_not_mem {κ α : Type} [DecidableEq κ] (l : List (κ × α))
    (k : κ) (v : α) (h : k ∉ alKeys l) : alInsert l k v = l ++ [(k, v)] := by
  induction l with
  | nil => simp [alInsert]
  | cons p rest ih =>
    simp only [alKeys, List.map_cons, List.mem_cons, not_or] at h
    have hpk : p.1 ≠ k := fun hh => h.1 hh.symm
    simp only [alInsert, if_neg hpk, List.cons_append, List.cons.injEq, true_and]
    exact ih h.2

theorem alKeys_alInsert_of_mem {κ α : Type} [DecidableEq κ] (l : List (κ × α))
    (k : κ) (v : α) (h : k ∈ alKeys l) :
    alKeys (alInsert l k v) = alKeys l := by
  induction l with
  | nil => simp [alKeys] at h
  | cons p rest ih =>
    by_cases h1 : p.1 = k
    · simp [alInsert, if_pos h1, alKeys, h1]
    · simp only [alKeys, List.map_cons, List.mem_cons] at h
      rcases h with h | h
    
      · exact absurd h.symm h1
      · simp only [alInsert, if_neg h1, alKeys, List.map_cons]
        unfold alKeys at ih
        rw [ih h]

theorem alLookup_nil {κ α : Type} [DecidableEq κ] (k : κ) :
    alLookup ([] : List (κ × α)) k = none := by
  simp [alLookup]

theorem alLookup_cons {κ α : Type} [DecidableEq κ] (p : κ × α)
    (rest : List (κ × α)) (k : κ) :
    alLookup (p :: rest) k = if p.1 = k then some p.2 else alLookup rest k := by
  unfold alLookup
  by_cases h1 : p.1 = k
  · simp [List.find?, h1]
  · simp only [List.find?, decide_eq_false h1, if_neg h1]

theorem alLookup_alInsert_self {κ α : Type} [DecidableEq κ] (l : List (κ × α))
    (k : κ) (v : α) : alLookup (alInsert l k v) k = some v := by
  induction l with
  | nil => simp [alInsert, alLookup, List.find?]
  | cons p rest ih =>
    by_cases h1 : p.1 = k
    · simp [alInsert, if_pos h1, alLookup_cons]
    · simp [alInsert, if_neg h1, alLookup_cons, h1, ih]

theorem alLookup_alInsert_ne {κ α : Type} [DecidableEq κ] (l : List (κ × α))
    (k g : κ) (v : α) (h : g ≠ k) :
    alLookup (alInsert l k v) g = alLookup l g := by
  have hkg : k ≠ g := fun hh => h hh.symm
  induction l with
  | nil =>
    show alLookup [(k, v)] g = alLookup [] g
    rw [alLookup_cons, if_neg hkg, alLookup_nil]
  | cons p rest ih =>
    by_cases h1 : p.1 = k
    · have hstep : alInsert (p :: rest) k v = (k, v) :: rest := by
        simp [alInsert, h1]
      have hpg : p.1 ≠ g := fun hh => hkg (h1 ▸ hh)
      rw [hstep, alLookup_cons, alLookup_cons, if_neg hkg, if_neg hpg]
    · have hstep : alInsert (p :: rest) k v = p :: alInsert rest k v := by
        simp [alInsert, h1]
      rw [hstep, alLookup_cons, alLookup_cons, ih]

theorem mem_alInsert {κ α : Type} [DecidableEq κ] (l : List (κ × α))
    (k : κ) (v : α) (p : κ × α) (h : p ∈ alInsert l k v) :
    p = (k, v) ∨ p ∈ l := by
  induction l with
  | nil => simpa [alInsert] using h
  | cons q rest ih =>
    by_cases h1 : q.1 = k
    · simp only [alInsert, if_pos h1, List.mem_cons] at h
      rcases h with h | h
      · exact Or.inl h
      · exact Or.inr (List.mem_cons_of_mem q h)
    · simp only [alInsert, if_neg h1, List.mem_cons] at h
      rcases h with h | h
      · exact Or.inr (by rw [h]; exact List.mem_cons_self q rest)
      · rcases ih h with h2 | h2
        · exact Or.inl h2
        · exact Or.inr (List.mem_cons_of_mem q h2)

theorem alKeys_nodup_alInsert {κ α : Type} [DecidableEq κ] (l : List (κ × α))
    (k : κ) (v : α) (h : (alKeys l).Nodup) :
    (alKeys (alInsert l k v)).Nodup := by
  by_cases hk : k ∈ alKeys l
  · rw [alKeys_alInsert_of_mem l k v hk]
    exact h
  · rw [alInsert_of_not_mem l k v hk]
    unfold alKeys at h ⊢
    rw [List.map_append]
    simp only [List.map_cons, List.map_nil]
    rw [List.nodup_append]
    exact ⟨h, List.nodup_singleton k, by
      intro x hx hy
      simp only [List.mem_singleton] at hy
      exact hk (hy ▸ hx)⟩

theorem alLookup_mem {κ α : Type} [DecidableEq κ] (l : List (κ × α))
    (k : κ) (v : α) (h : alLookup l k = some v) : (k, v) ∈ l := by
  induction l with
  | nil => simp [alLookup_nil] at h
  | cons p rest ih =>
    rw [alLookup_cons] at h
    by_cases h1 : p.1 = k
    · rw [if_pos h1] at h
      have hv : p.2 = v := Option.some.inj h
      have hp : p = (k, v) := Prod.ext h1 hv
      rw [← hp]
      exact List.mem_cons_self p rest
    · rw [if_neg h1] at h
      exact List.mem_cons_of_mem p (ih h)

theorem alLookup_isSome_of_mem_keys {κ α : Type} [DecidableEq κ]
    (l : List (κ × α)) (k : κ) (h : k ∈ alKeys l) :
    ∃ v, alLookup l k = some v := by
  induction l with
  | nil => simp [alKeys] at h
  | cons p rest ih =>
    rw [alLookup_cons]
    by_cases h1 : p.1 = k
    · exact ⟨p.2, by rw [if_pos h1]⟩
    · simp only [alKeys, List.map_cons, List.mem_cons] at h
      rcases h with h | h
      · exact absurd h.symm h1
      · rw [if_neg h1]
        exact ih h

theorem countP_keys_zero {κ α : Type} [DecidableEq κ] (l : List (κ × α))
    (k : κ) (h : k ∉ alKeys l) :
    l.countP (fun p => decide (p.1 = k)) = 0 := by
  rw [List.countP_eq_zero]
  intro p hp
  simp only [decide_eq_true_eq]
  intro he
  exact h (he ▸ List.mem_map_of_mem Prod.fst hp)

theorem countP_keys_one {κ α : Type} [DecidableEq κ] (l : List (κ × α))
    (k : κ) (hnd : (alKeys l).Nodup) (h : k ∈ alKeys l) :
    l.countP (fun p => decide (p.1 = k)) = 1 := by
  induction l with
  | nil => simp [alKeys] at h
  | cons p rest ih =>
    simp only [alKeys, List.map_cons, List.nodup_cons] at hnd
    rw [List.countP_cons]
    by_cases h1 : p.1 = k
    · rw [countP_keys_zero rest k (h1 ▸ hnd.1)]
      simp [h1]
    · simp only [alKeys, List.map_cons, List.mem_cons] at h
      rcases h with h | h
      · exact absurd h.symm h1
      · rw [ih hnd.2 h]
        simp [h1]

theorem foldl_min_le_init (xs : List Int) (a : Int) : xs.foldl min a ≤ a := by
  induction xs generalizing a with
  | nil => simp
  | cons x rest ih =>
    simp only [List.foldl_cons]
    exact le_trans (ih (min a x)) (min_le_left a x)

theorem foldl_min_le_mem (xs : List Int) (a x : Int) (hx : x ∈ xs) :
    xs.foldl min a ≤ x := by
  induction xs generalizing a with
  | nil => simp at hx
  | cons y rest ih =>
    simp only [List.mem_cons] at hx
    simp only [List.foldl_cons]
    rcases hx with rfl | hx
    · exact le_trans (foldl_min_le_init rest (min a x)) (min_le_right a x)
    · exact ih (min a y) hx

theorem foldl_min_mem (xs : List Int) (a : Int) :
    xs.foldl min a = a ∨ xs.foldl min a ∈ xs := by
  induction xs generalizing a with
  | nil => simp
  | cons x rest ih =>
    simp only [List.foldl_cons, List.mem_cons]
    rcases ih (min a x) with h | h
    · rcases le_total a x with hax | hax
      · exact Or.inl (h.trans (min_eq_left hax))
      · exact Or.inr (Or.inl (h.trans (min_eq_right hax)))
    · exact Or.inr (Or.inr h)

theorem minKeys_le (l : List Int) (x : Int) (hx : x ∈ l) : minKeys l ≤ x := by
  cases l with
  | nil => simp at hx
  | cons y rest =>
    simp only [List.mem_cons] at hx
    unfold minKeys
    rcases hx with rfl | hx
    · exact foldl_min_le_init rest x
    · exact foldl_min_le_mem rest y x hx

theorem minKeys_mem (l : List Int) (h : l ≠ []) : minKeys l ∈ l := by
  cases l with
  | nil => exact absurd rfl h
  | cons y rest =>
    show rest.foldl min y ∈ y :: rest
    rcases foldl_min_mem rest y with h1 | h1
    · rw [h1]
      exact List.mem_cons_self y rest
    · exact List.mem_cons_of_mem y h1

theorem foldl_max_init_le (xs : List Int) (a : Int) : a ≤ xs.foldl max a := by
  induction xs generalizing a with
  | nil => simp
  | cons x rest ih =>
    simp only [List.foldl_cons]
    exact le_trans (le_max_left a x) (ih (max a x))

theorem foldl_max_mem_le (xs : List Int) (a x : Int) (hx : x ∈ xs) :
    x ≤ xs.foldl max a := by
  induction xs generalizing a with
  | nil => simp at hx
  | cons y rest ih =>
    simp only [List.mem_cons] at hx
    simp only [List.foldl_cons]
    rcases hx with rfl | hx
    · exact le_trans (le_max_right a x) (foldl_max_init_le rest (max a x))
    · exact ih (max a y) hx

theorem foldl_max_mem (xs : List Int) (a : Int) :
    xs.foldl max a = a ∨ xs.foldl max a ∈ xs := by
  induction xs generalizing a with
  | nil => simp
  | cons x rest ih =>
    simp only [List.foldl_cons, List.mem_cons]
    rcases ih (max a x) with h | h
    · rcases le_total a x with hax | hax
      · exact Or.inr (Or.inl (h.trans (max_eq_right hax)))
      · exact Or.inl (h.trans (max_eq_left hax))
    · exact Or.inr (Or.inr h)

theorem le_maxKeys (l : List Int) (x : Int) (hx : x ∈ l) : x ≤ maxKeys l := by
  cases l with
  | nil => simp at hx
  | cons y rest =>
    simp only [List.mem_cons] at hx
    unfold maxKeys
    rcases hx with rfl | hx
    · exact foldl_max_init_le rest x
    · exact foldl_max_mem_le rest y x hx

theorem maxKeys_mem (l : List Int) (h : l ≠ []) : maxKeys l ∈ l := by
  cases l with
  | nil => exact absurd rfl h
  | cons y rest =>
    show rest.foldl max y ∈ y :: rest
    rcases foldl_max_mem rest y with h1 | h1
    · rw [h1]
      exact List.mem_cons_self y rest
    · exact List.mem_cons_of_mem y h1

/-! Field-preservation lemmas for the local-insert path. -/

theorem add_entry_pending (db : Device) (e : DeviceEntry) :
    (db.add_entry e).pending = db.pending := by
  unfold Device.add_entry
  dsimp only
  repeat' split
  all_goals rfl

theorem add_entry_delta (db : Device) (e : DeviceEntry) :
    (db.add_entry e).delta = db.delta := by
  unfold Device.add_entry
  dsimp only
  repeat' split
  all_goals rfl

theorem add_entry_addr (db : Device) (e : DeviceEntry) :
    (db.add_entry e).addr = db.addr := by
  unfold Device.add_entry
  dsimp only
  repeat' split
  all_goals rfl

theorem add_entry_in_use_fields (db : Device) (e : DeviceEntry)
    (h : e.db_flags.in_use = true) :
    (db.add_entry e).entries = alInsert db.entries e.mem_loc e ∧
    (db.add_entry e).unused = db.unused ∧
    (db.add_entry e).mem_locs = setInsert db.mem_locs e.mem_loc := by
  unfold Device.add_entry
  rw [if_pos h]
  dsimp only
  repeat' split
  all_goals exact ⟨rfl, rfl, rfl⟩

theorem add_entry_not_in_use_fields (db : Device) (e : DeviceEntry)
    (h : e.db_flags.in_use = false) :
    (db.add_entry e).entries = db.entries ∧
    (db.add_entry e).unused = alInsert db.unused e.mem_loc e ∧
    (db.add_entry e).mem_locs = setInsert db.mem_locs e.mem_loc := by
  unfold Device.add_entry
  rw [if_neg (by rw [h]; exact Bool.false_ne_true)]
  dsimp only
  repeat' split
  all_goals exact ⟨rfl, rfl, rfl⟩

theorem commitAdd_pending (db : Device) (h : HandlerData) :
    (db.commitAdd h).pending = db.pending := by
  unfold Device.commitAdd commitList
  cases hf : h.followup with
  | none => simp [add_entry_pending]
  | some p => simp [add_entry_pending]

theorem pushMarker_pending (db : Device) :
    (pushMarker db).pending =
      if db.pending = [] then [QItem.marker] else db.pending := by
  unfold pushMarker
  split <;> rfl

theorem add_using_unused_state (db db1 : Device) (a g : Nat) (ic : Bool)
    (d : List Nat) (m : OutMsg) (h : HandlerData)
    (hs : db.add_using_unused a g ic d = some (db1, m, h)) :
    db1 = { db with unused := alErase db.unused (maxKeys (alKeys db.unused)) } := by
  unfold Device.add_using_unused at hs
  split at hs
  · exact absurd hs (by simp)
  · dsimp only at hs
    simp only [Option.some.injEq, Prod.mk.injEq] at hs
    exact hs.1.symm

/-- `_add_on_device` on the `sent` path only pushes the dummy marker onto
an empty `_pending`; a non-empty queue is left as it is. -/
theorem impl_sent_pending (db db1 : Device) (a g : Nat) (ic : Bool)
    (d : List Nat) (m : OutMsg) (h : HandlerData)
    (hs : db.add_on_device_impl a g ic d = AddResult.sent db1 m h) :
    db1.pending = if db.pending = [] then [QItem.marker] else db.pending := by
  unfold Device.add_on_device_impl at hs
  split at hs
  · exact absurd hs (by simp)
  · split at hs
    · exact absurd hs (by simp)
    · split at hs
      · split at hs
        · exact absurd hs (by simp)
        · rename_i t db1a ma ha heq
          simp only [AddResult.sent.injEq] at hs
          have hpp : db1a.pending = db.pending := by
            rw [add_using_unused_state db db1a a g ic d ma ha heq]
          rw [← hs.1, pushMarker_pending, hpp]
      · split at hs
        · exact absurd hs (by simp)
        · exact absurd hs (by simp)
        · simp only [AddResult.sent.injEq] at hs
          rw [← hs.1, pushMarker_pending]

/-- C10: with no matching entry and an empty `entries` map, the add
operation fails the `assert len(self.entries)` check before either
strategy is chosen, regardless of `unused`. -/
theorem c10_assert_on_empty_entries (db : Device) (a g : Nat) (ic : Bool)
    (d : List Nat) (hfind : db.find a g ic = none)
    (he : db.entries = []) :
    db.add_on_device_impl a g ic d = AddResult.assertError db := by
  unfold Device.add_on_device_impl
  rw [hfind, he]
  rfl

theorem c10_assert_on_empty_entries_witness :
    (Device.find ⟨5, none, [], [(8, ⟨8, 8, 8, ⟨false, false, false⟩, []⟩)], [],
        [8], []⟩ 1 1 true = none) ∧
    Device.add_on_device_impl ⟨5, none, [],
        [(8, ⟨8, 8, 8, ⟨false, false, false⟩, []⟩)], [], [8], []⟩ 1 1 true [] =
      AddResult.assertError ⟨5, none, [],
        [(8, ⟨8, 8, 8, ⟨false, false, false⟩, []⟩)], [], [8], []⟩ :=
  ⟨by decide, c10_assert_on_empty_entries _ 1 1 true [] (by decide) rfl⟩

/-- C8: an add whose (peer, group, role) triple already matches an entry
completes synchronously: `on_done(True, "Entry already exists", entry)` is
invoked, no message reaches `protocol.send`, and the state is returned
unchanged. -/
theorem c8_duplicate_noop (db : Device) (a g : Nat) (ic : Bool)
    (d : List Nat) (e : DeviceEntry) (hp : db.pending = [])
    (hfind : db.find a g ic = some e) :
    db.add_on_device 0 a g ic d =
      AddResult.duplicate db true "Entry already exists" e := by
  unfold Device.add_on_device
  rw [if_pos hp]
  unfold Device.add_on_device_impl
  rw [hfind]

theorem c8_duplicate_noop_witness :
    (Device.find ⟨5, none, [(16, ⟨9, 9, 16, ⟨true, false, true⟩, [0, 0, 0]⟩)],
        [], [], [16], []⟩ 9 9 false = some ⟨9, 9, 16, ⟨true, false, true⟩, [0, 0, 0]⟩) ∧
    Device.add_on_device ⟨5, none, [(16, ⟨9, 9, 16, ⟨true, false, true⟩, [0, 0, 0]⟩)],
        [], [], [16], []⟩ 0 9 9 false [1] =
      AddResult.duplicate ⟨5, none, [(16, ⟨9, 9, 16, ⟨true, false, true⟩, [0, 0, 0]⟩)],
        [], [], [16], []⟩ true "Entry already exists"
        ⟨9, 9, 16, ⟨true, false, true⟩, [0, 0, 0]⟩ :=
  ⟨by decide, c8_duplicate_noop _ 9 9 false [1] _ rfl (by decide)⟩

theorem pushMarker_fields (db : Device) :
    (pushMarker db).addr = db.addr ∧ (pushMarker db).delta = db.delta ∧
    (pushMarker db).entries = db.entries ∧ (pushMarker db).unused = db.unused ∧
    (pushMarker db).groups = db.groups ∧ (pushMarker db).mem_locs = db.mem_locs := by
  unfold pushMarker
  split <;> exact ⟨rfl, rfl, rfl, rfl, rfl, rfl⟩

/-- C1 is false as stated: in the reuse path `_add_using_unused` executes
`self.unused.pop(max(self.unused.keys()))` before `protocol.send` is even
called, so `unused` is mutated before any remote acknowledgment; if the
write then fails, the local state is not what it was before the
operation. -/
theorem c1_counterexample :
    c1Db.add_on_device_impl 1 1 false [] = AddResult.sent c1Post c1Msg c1H ∧
    c1Post.unused = [] ∧ c1Db.unused ≠ [] :=
  ⟨by decide, by decide, by decide⟩

/-- C1 (amended): on every `sent` path of an add, `entries`, `groups`,
`knownSlots` and `delta` are untouched before acknowledgment, and in the
growth path `unused` is untouched too; but in the reuse path the selected
highest-address unused entry has already been popped from `unused` when
the write is issued, before any acknowledgment. -/
theorem c1_amended_pre_ack_state (db db1 : Device) (a g : Nat) (ic : Bool)
    (d : List Nat) (m : OutMsg) (h : HandlerData)
    (hs : db.add_on_device_impl a g ic d = AddResult.sent db1 m h) :
    db1.entries = db.entries ∧ db1.groups = db.groups ∧
    db1.mem_locs = db.mem_locs ∧ db1.delta = db.delta ∧
    (db.unused = [] → db1.unused = db.unused) ∧
    (db.unused ≠ [] → db1.unused = alErase db.unused (maxKeys (alKeys db.unused))) := by
  unfold Device.add_on_device_impl at hs
  split at hs
  · exact absurd hs (by simp)
  · split at hs
    · exact absurd hs (by simp)
    · split at hs
      · rename_i hune
        split at hs
        · exact absurd hs (by simp)
        · rename_i t db1a ma ha heq
          simp only [AddResult.sent.injEq] at hs
          have hst := add_using_unused_state db db1a a g ic d ma ha heq
          rw [← hs.1, hst]
          obtain ⟨hf1, hf2, hf3, hf4, hf5, hf6⟩ := pushMarker_fields
            { db with unused := alErase db.unused (maxKeys (alKeys db.unused)) }
          exact ⟨hf3, hf5, hf6, hf2, fun hemp => absurd hemp hune, fun _ => hf4⟩
      · rename_i hune
        have hemp : db.unused = [] := not_not.mp hune
        split at hs
        · exact absurd hs (by simp)
        · exact absurd hs (by simp)
        · simp only [AddResult.sent.injEq] at hs
          obtain ⟨hf1, hf2, hf3, hf4, hf5, hf6⟩ := pushMarker_fields db
          rw [← hs.1]
          exact ⟨hf3, hf5, hf6, hf2, fun _ => hf4, fun hne => absurd hemp hne⟩

theorem c1_amended_pre_ack_state_witness :
    c1Post.entries = c1Db.entries ∧
    c1Post.unused = alErase c1Db.unused (maxKeys (alKeys c1Db.unused)) := by
  have h := c1_amended_pre_ack_state c1Db c1Post 1 1 false [] c1Msg c1H (by decide)
  exact ⟨h.1, h.2.2.2.2.2 (by decide)⟩

/-- C9 is not quite right as stated: the defensive abort issues no write
and leaves `entries`/`unused`/`groups`/`knownSlots` alone, but
`_add_on_device` still appends the dummy marker to `_pending` (line
494-495 runs after `_add_using_new` returns), so Database state *is*
mutated: the pending queue goes from `[]` to `[marker]` — and no handler
will ever pop it. -/
theorem c9_counterexample :
    Device.add_on_device_impl c9Db 1 1 false [] =
      AddResult.aborted { c9Db with pending := [QItem.marker] } ∧
    ({ c9Db with pending := [QItem.marker] } : Device).pending ≠ c9Db.pending :=
  ⟨by decide, by decide⟩

/-- C9 (amended): when the growth strategy cannot locate a last-record
entry at `min(knownSlots)`, the operation aborts: the error is logged, no
message is sent, no exception escapes, and `entries`, `unused`, `groups`
and `knownSlots` are unchanged — but the dummy in-flight marker is still
pushed onto an empty pending queue. -/
theorem c9_amended_abort (db : Device) (a g : Nat) (ic : Bool)
    (d : List Nat) (hfind : db.find a g ic = none)
    (hne : ¬db.entries.length = 0) (hu : db.unused = [])
    (hm : ¬db.mem_locs = [])
    (hmiss : db.find_mem_loc (minKeys db.mem_locs) = none) :
    db.add_on_device_impl a g ic d = AddResult.aborted (pushMarker db) ∧
    (pushMarker db).entries = db.entries ∧
    (pushMarker db).unused = db.unused ∧
    (pushMarker db).groups = db.groups ∧
    (pushMarker db).mem_locs = db.mem_locs ∧
    (db.pending = [] → (pushMarker db).pending = [QItem.marker]) := by
  obtain ⟨hf1, hf2, hf3, hf4, hf5, hf6⟩ := pushMarker_fields db
  refine ⟨?_, hf3, hf4, hf5, hf6, ?_⟩
  · unfold Device.add_on_device_impl
    rw [hfind]
    rw [if_neg hne]
    rw [if_neg (by simp [hu])]
    unfold Device.add_using_new
    rw [if_neg hm, hmiss]
  · intro hp
    unfold pushMarker
    rw [if_pos hp]

theorem c9_amended_abort_witness :
    Device.add_on_device_impl c9Db 1 1 false [] =
      AddResult.aborted (pushMarker c9Db) ∧
    (pushMarker c9Db).entries = c9Db.entries := by
  have h := c9_amended_abort c9Db 1 1 false [] (by decide) (by decide) rfl
    (by decide) (by decide)
  exact ⟨h.1, h.2.1⟩

theorem alKeys_ne_nil {κ α : Type} (l : List (κ × α)) (h : l ≠ []) :
    alKeys l ≠ [] := by
  cases l with
  | nil => exact absurd rfl h
  | cons p rest => simp [alKeys]

theorem setInsert_of_mem {κ : Type} [DecidableEq κ] (l : List κ) (k : κ)
    (h : k ∈ l) : setInsert l k = l := by
  unfold setInsert
  rw [if_pos h]

theorem setInsert_of_not_mem {κ : Type} [DecidableEq κ] (l : List κ) (k : κ)
    (h : k ∉ l) : setInsert l k = l ++ [k] := by
  unfold setInsert
  rw [if_neg h]

/-- C5: when `unused` is non-empty and the add is neither a duplicate nor
an assert failure, `_add_using_unused` repurposes the highest-address
unused entry in place and issues exactly one write for it; after the
handler commits the acknowledged write, the entry occupies that previously
unused slot and `knownSlots` is unchanged. -/
theorem c5_reuse_strategy (db : Device) (a g : Nat) (ic : Bool)
    (d : List Nat) (hfind : db.find a g ic = none)
    (hne : ¬db.entries.length = 0) (hune : db.unused ≠ [])
    (hwfu : ∀ p ∈ db.unused, p.2.mem_loc = p.1)
    (hsubu : ∀ p ∈ db.unused, p.1 ∈ db.mem_locs) :
    c5Concl db a g ic d := by
  have hmk : maxKeys (alKeys db.unused) ∈ alKeys db.unused :=
    maxKeys_mem _ (alKeys_ne_nil _ hune)
  obtain ⟨e0, he0⟩ := alLookup_isSome_of_mem_keys _ _ hmk
  have hpair := alLookup_mem _ _ _ he0
  have he0loc : e0.mem_loc = maxKeys (alKeys db.unused) := hwfu _ hpair
  have hmkmem : maxKeys (alKeys db.unused) ∈ db.mem_locs := hsubu _ hpair
  have himpl : db.add_on_device_impl a g ic d =
      AddResult.sent
        (pushMarker { db with unused := alErase db.unused (maxKeys (alKeys db.unused)) })
        ⟨db.addr, 0x2f, 0x00, e0.update_from a g ic d⟩
        ⟨e0.update_from a g ic d, none⟩ := by
    unfold Device.add_on_device_impl
    rw [hfind]
    rw [if_neg hne, if_pos hune]
    unfold Device.add_using_unused
    rw [he0]
  obtain ⟨hf1, hf2, hf3, hf4, hf5, hf6⟩ := pushMarker_fields
    { db with unused := alErase db.unused (maxKeys (alKeys db.unused)) }
  have hedloc : (e0.update_from a g ic d).mem_loc = maxKeys (alKeys db.unused) := he0loc
  refine ⟨_, _, _, himpl, rfl, rfl, hedloc, by rw [hedloc]; exact hmk,
    rfl, rfl, rfl, rfl, rfl, hf4, hf3, ?_, ?_⟩
  · show ((pushMarker _).add_entry (e0.update_from a g ic d)).mem_locs = db.mem_locs
    obtain ⟨ha1, ha2, ha3⟩ :=
      add_entry_in_use_fields
        (pushMarker { db with unused := alErase db.unused (maxKeys (alKeys db.unused)) })
        (e0.update_from a g ic d) rfl
    rw [ha3, hf6]
    show setInsert db.mem_locs (e0.update_from a g ic d).mem_loc = db.mem_locs
    rw [hedloc]
    exact setInsert_of_mem _ _ hmkmem
  · show alLookup ((pushMarker _).add_entry (e0.update_from a g ic d)).entries
      (e0.update_from a g ic d).mem_loc = some (e0.update_from a g ic d)
    obtain ⟨ha1, ha2, ha3⟩ :=
      add_entry_in_use_fields
        (pushMarker { db with unused := alErase db.unused (maxKeys (alKeys db.unused)) })
        (e0.update_from a g ic d) rfl
    rw [ha1]
    exact alLookup_alInsert_self _ _ _

theorem c5_reuse_strategy_witness : c5Concl c1Db 2 3 true [7] := by
  exact c5_reuse_strategy c1Db 2 3 true [7] (by decide) (by decide)
    (by decide) (by decide) (by decide)

theorem alKeys_append {κ α : Type} (l1 l2 : List (κ × α)) :
    alKeys (l1 ++ l2) = alKeys l1 ++ alKeys l2 := by
  unfold alKeys
  rw [List.map_append]

theorem alInsert_append_left {κ α : Type} [DecidableEq κ]
    (l1 l2 : List (κ × α)) (k : κ) (v : α) (h : k ∈ alKeys l1) :
    alInsert (l1 ++ l2) k v = alInsert l1 k v ++ l2 := by
  induction l1 with
  | nil => simp [alKeys] at h
  | cons p rest ih =>
    by_cases h1 : p.1 = k
    · simp [alInsert, h1]
    · simp only [alKeys, List.map_cons, List.mem_cons] at h
      rcases h with h | h
      · exact absurd h.symm h1
      · simp only [List.cons_append, alInsert, if_neg h1, List.cons.injEq, true_and]
        exact ih h

theorem alInsert_mem_split {κ α : Type} [DecidableEq κ]
    (l : List (κ × α)) (k : κ) (v : α) (h : k ∈ alKeys l) :
    ∃ l1 p l2, l = l1 ++ p :: l2 ∧ p.1 = k ∧ k ∉ alKeys l1 ∧
      alInsert l k v = l1 ++ (k, v) :: l2 := by
  induction l with
  | nil => simp [alKeys] at h
  | cons q rest ih =>
    by_cases h1 : q.1 = k
    · refine ⟨[], q, rest, by simp, h1, by simp [alKeys], ?_⟩
      simp [alInsert, h1]
    · simp only [alKeys, List.map_cons, List.mem_cons] at h
      rcases h with h | h
      · exact absurd h.symm h1
      · obtain ⟨l1, p, l2, hsplit, hpk, hnot, hins⟩ := ih h
        refine ⟨q :: l1, p, l2, by rw [hsplit]; rfl, hpk, ?_, ?_⟩
        · simp only [alKeys, List.map_cons, List.mem_cons, not_or]
          exact ⟨fun hh => h1 hh.symm, hnot⟩
        · simp only [alInsert, if_neg h1, List.cons_append, List.cons.injEq, true_and]
          exact hins

theorem alLookup_append_right {κ α : Type} [DecidableEq κ]
    (l1 l2 : List (κ × α)) (k : κ) (h : k ∉ alKeys l1) :
    alLookup (l1 ++ l2) k = alLookup l2 k := by
  induction l1 with
  | nil => rfl
  | cons p rest ih =>
    simp only [alKeys, List.map_cons, List.mem_cons, not_or] at h
    rw [List.cons_append, alLookup_cons, if_neg (fun hh => h.1 hh.symm)]
    exact ih h.2

theorem add_entry_in_use_fields_loc (db : Device) (e : DeviceEntry) (k : Int)
    (h : e.db_flags.in_use = true) (hk : e.mem_loc = k) :
    (db.add_entry e).entries = alInsert db.entries k e ∧
    (db.add_entry e).unused = db.unused ∧
    (db.add_entry e).mem_locs = setInsert db.mem_locs k := by
  subst hk
  exact add_entry_in_use_fields db e h

/-- C4: growth-path add with a well-formed database: entry keys match
entry slot addresses, all stored entries are in-use, entry keys are
duplicate-free members of `knownSlots`, the minimum known slot is an entry
key, and the is-last-record flag marks exactly the entries stored at that
minimum.  Then the add behaves as C4 describes. -/
theorem c4_growth_strategy (db : Device) (a g : Nat) (ic : Bool)
    (d : List Nat) (hfind : db.find a g ic = none)
    (hne : ¬db.entries.length = 0) (hu : db.unused = [])
    (hm : ¬db.mem_locs = [])
    (hminmem : minKeys db.mem_locs ∈ alKeys db.entries)
    (hkeys : ∀ p ∈ db.entries, p.2.mem_loc = p.1 ∧ p.2.db_flags.in_use = true)
    (hsub : ∀ p ∈ db.entries, p.1 ∈ db.mem_locs)
    (hnd : (alKeys db.entries).Nodup)
    (hone : ∀ p ∈ db.entries,
      (p.2.db_flags.is_last_rec = true ↔ p.1 = minKeys db.mem_locs)) :
    c4Concl db a g ic d := by
  obtain ⟨last, hlast⟩ := alLookup_isSome_of_mem_keys db.entries _ hminmem
  have hfml : db.find_mem_loc (minKeys db.mem_locs) = some last := hlast
  have hpair : (minKeys db.mem_locs, last) ∈ db.entries := alLookup_mem _ _ _ hlast
  have hlloc : last.mem_loc = minKeys db.mem_locs := (hkeys _ hpair).1
  have hluse : last.db_flags.in_use = true := (hkeys _ hpair).2
  have hfresh_m : minKeys db.mem_locs - 8 ∉ db.mem_locs := by
    intro hc
    have := minKeys_le db.mem_locs _ hc
    omega
  have hfresh_e : minKeys db.mem_locs - 8 ∉ alKeys db.entries := by
    intro hc
    obtain ⟨p, hp, hpe⟩ := List.mem_map.mp hc
    exact hfresh_m (hpe ▸ hsub p hp)
  have hmnmem : minKeys db.mem_locs ∈ db.mem_locs := minKeys_mem _ hm
  have hnew : db.add_using_new a g ic d =
      NewResult.started
        ⟨db.addr, 0x2f, 0x00, ⟨a, g, minKeys db.mem_locs - 8, ⟨true, ic, true⟩, d⟩⟩
        ⟨⟨a, g, minKeys db.mem_locs - 8, ⟨true, ic, true⟩, d⟩,
          some (⟨db.addr, 0x2f, 0x00,
              { last with db_flags := { last.db_flags with is_last_rec := false } }⟩,
            { last with db_flags := { last.db_flags with is_last_rec := false } })⟩ := by
    unfold Device.add_using_new
    rw [if_neg hm, hfml]
    dsimp only
    rw [hlloc]
  have himpl : db.add_on_device_impl a g ic d =
      AddResult.sent (pushMarker db)
        ⟨db.addr, 0x2f, 0x00, ⟨a, g, minKeys db.mem_locs - 8, ⟨true, ic, true⟩, d⟩⟩
        ⟨⟨a, g, minKeys db.mem_locs - 8, ⟨true, ic, true⟩, d⟩,
          some (⟨db.addr, 0x2f, 0x00,
              { last with db_flags := { last.db_flags with is_last_rec := false } }⟩,
            { last with db_flags := { last.db_flags with is_last_rec := false } })⟩ := by
    unfold Device.add_on_device_impl
    rw [hfind, if_neg hne, if_neg (by simp [hu]), hnew]
  obtain ⟨hf1, hf2, hf3, hf4, hf5, hf6⟩ := pushMarker_fields db
  have hcommit :
      ((pushMarker db).commitAdd
        ⟨⟨a, g, minKeys db.mem_locs - 8, ⟨true, ic, true⟩, d⟩,
          some (⟨db.addr, 0x2f, 0x00,
              { last with db_flags := { last.db_flags with is_last_rec := false } }⟩,
            { last with db_flags := { last.db_flags with is_last_rec := false } })⟩) =
      ((pushMarker db).add_entry
          ⟨a, g, minKeys db.mem_locs - 8, ⟨true, ic, true⟩, d⟩).add_entry
        { last with db_flags := { last.db_flags with is_last_rec := false } } := rfl
  obtain ⟨ha1, ha2, ha3⟩ := add_entry_in_use_fields_loc (pushMarker db)
    (⟨a, g, minKeys db.mem_locs - 8, ⟨true, ic, true⟩, d⟩ : DeviceEntry)
    (minKeys db.mem_locs - 8) rfl rfl
  rw [hf3] at ha1
  rw [hf6] at ha3
  obtain ⟨hb1, hb2, hb3⟩ := add_entry_in_use_fields_loc
    ((pushMarker db).add_entry ⟨a, g, minKeys db.mem_locs - 8, ⟨true, ic, true⟩, d⟩)
    ({ last with db_flags := { last.db_flags with is_last_rec := false } })
    (minKeys db.mem_locs) hluse hlloc
  rw [ha1, alInsert_of_not_mem db.entries _ _ hfresh_e] at hb1
  rw [ha3, setInsert_of_not_mem db.mem_locs _ hfresh_m] at hb3
  rw [alInsert_append_left db.entries _ _ _ hminmem] at hb1
  obtain ⟨L1, p, L2, hsplit, hpk, hnotL1, hins⟩ :=
    alInsert_mem_split db.entries (minKeys db.mem_locs)
      ({ last with db_flags := { last.db_flags with is_last_rec := false } }) hminmem
  rw [hins] at hb1
  have hmemL : ∀ q ∈ L1 ++ p :: L2, q ∈ db.entries := fun q hq => hsplit ▸ hq
  have hndk : minKeys db.mem_locs ∉ alKeys L2 := by
    have hx := hsplit ▸ hnd
    rw [alKeys_append] at hx
    have h2 := (List.nodup_append.mp hx).2.1
    simp only [alKeys, List.map_cons, List.nodup_cons] at h2
    exact fun hc => h2.1 (hpk ▸ hc)
  have hsetB : setInsert (db.mem_locs ++ [minKeys db.mem_locs - 8])
      (minKeys db.mem_locs) = db.mem_locs ++ [minKeys db.mem_locs - 8] :=
    setInsert_of_mem _ _ (List.mem_append_left _ hmnmem)
  rw [hsetB] at hb3
  refine ⟨_, _, _, last, himpl, hfml, rfl, rfl, rfl, hf3, hf4, hf5, hf6, ?_, ?_, ?_⟩
  · rw [hcommit, hb1]
    rw [List.countP_append, List.countP_append]
    have hz1 : L1.countP (fun p => p.2.db_flags.is_last_rec) = 0 := by
      rw [List.countP_eq_zero]
      intro q hq
      have hqin : q ∈ db.entries := hmemL q (List.mem_append_left _ hq)
      have hq1 : q.1 ≠ minKeys db.mem_locs := by
        intro hc
        exact hnotL1 (hc ▸ List.mem_map_of_mem Prod.fst hq)
      simp only [Bool.not_eq_true]
      rcases Bool.eq_false_or_eq_true q.2.db_flags.is_last_rec with hb | hb
      · exact absurd ((hone q hqin).mp hb) hq1
      · exact hb
    have hz2 : L2.countP (fun p => p.2.db_flags.is_last_rec) = 0 := by
      rw [List.countP_eq_zero]
      intro q hq
      have hqin : q ∈ db.entries :=
        hmemL q (List.mem_append_right _ (List.mem_cons_of_mem p hq))
      have hq1 : q.1 ≠ minKeys db.mem_locs := by
        intro hc
        exact hndk (hc ▸ List.mem_map_of_mem Prod.fst hq)
      simp only [Bool.not_eq_true]
      rcases Bool.eq_false_or_eq_true q.2.db_flags.is_last_rec with hb | hb
      · exact absurd ((hone q hqin).mp hb) hq1
      · exact hb
    rw [hz1, List.countP_cons, hz2]
    rfl
  · rw [hcommit, hb3]
    have hmemB : minKeys db.mem_locs - 8 ∈ db.mem_locs ++ [minKeys db.mem_locs - 8] :=
      List.mem_append_right _ (by simp)
    have hnn : db.mem_locs ++ [minKeys db.mem_locs - 8] ≠ [] := by simp
    have h1 := minKeys_le _ _ hmemB
    have h2 : minKeys db.mem_locs - 8 ≤
        minKeys (db.mem_locs ++ [minKeys db.mem_locs - 8]) := by
      have hmem := minKeys_mem _ hnn
      rcases List.mem_append.mp hmem with hy | hy
      · have := minKeys_le db.mem_locs _ hy
        omega
      · simp only [List.mem_singleton] at hy
        omega
    omega
  · rw [hcommit, hb1]
    have hnotpre : minKeys db.mem_locs - 8 ∉ alKeys (L1 ++ (minKeys db.mem_locs,
        { last with db_flags := { last.db_flags with is_last_rec := false } }) :: L2) := by
      rw [alKeys_append]
      intro hc
      rcases List.mem_append.mp hc with hc | hc
      · have hcc : minKeys db.mem_locs - 8 ∈ alKeys db.entries := by
          rw [hsplit, alKeys_append]
          exact List.mem_append_left _ hc
        exact hfresh_e hcc
      · simp only [alKeys, List.map_cons, List.mem_cons] at hc
        rcases hc with hc | hc
        · omega
        · have hcc : minKeys db.mem_locs - 8 ∈ alKeys db.entries := by
            rw [hsplit, alKeys_append]
            refine List.mem_append_right _ ?_
            simp only [alKeys, List.map_cons, List.mem_cons]
            exact Or.inr hc
          exact hfresh_e hcc
    rw [alLookup_append_right _ _ _ hnotpre, alLookup_cons]
    simp

theorem c4_growth_strategy_witness : c4Concl c4Db 1 1 true [1, 2, 3] :=
  c4_growth_strategy c4Db 1 1 true [1, 2, 3] (by decide) (by decide) rfl
    (by decide) (by decide) (by decide) (by decide) (by decide) (by decide)

theorem add_entry_union (db : Device) (e : DeviceEntry)
    (h : ∀ x : Int, (x ∈ alKeys db.entries ∨ x ∈ alKeys db.unused) ↔
      x ∈ db.mem_locs) :
    ∀ x : Int, (x ∈ alKeys (db.add_entry e).entries ∨
      x ∈ alKeys (db.add_entry e).unused) ↔ x ∈ (db.add_entry e).mem_locs := by
  intro x
  by_cases hu : e.db_flags.in_use = true
  · obtain ⟨h1, h2, h3⟩ := add_entry_in_use_fields db e hu
    rw [h1, h2, h3, mem_alKeys_alInsert, mem_setInsert]
    have hx := h x
    tauto
  · have hu2 : e.db_flags.in_use = false := Bool.eq_false_iff.mpr hu
    obtain ⟨h1, h2, h3⟩ := add_entry_not_in_use_fields db e hu2
    rw [h1, h2, h3, mem_alKeys_alInsert, mem_setInsert]
    have hx := h x
    tauto

theorem foldl_add_entry_union (l : List DeviceEntry) (db : Device)
    (h : ∀ x : Int, (x ∈ alKeys db.entries ∨ x ∈ alKeys db.unused) ↔
      x ∈ db.mem_locs) :
    ∀ x : Int, (x ∈ alKeys (l.foldl Device.add_entry db).entries ∨
      x ∈ alKeys (l.foldl Device.add_entry db).unused) ↔
      x ∈ (l.foldl Device.add_entry db).mem_locs := by
  induction l generalizing db with
  | nil => exact h
  | cons e rest ih => exact ih _ (add_entry_union db e h)

theorem add_entry_nodup_keys (db : Device) (e : DeviceEntry)
    (h1 : (alKeys db.entries).Nodup) (h2 : (alKeys db.unused).Nodup) :
    (alKeys (db.add_entry e).entries).Nodup ∧
    (alKeys (db.add_entry e).unused).Nodup := by
  by_cases hu : e.db_flags.in_use = true
  · obtain ⟨ha, hb, hc⟩ := add_entry_in_use_fields db e hu
    rw [ha, hb]
    exact ⟨alKeys_nodup_alInsert _ _ _ h1, h2⟩
  · have hu2 : e.db_flags.in_use = false := Bool.eq_false_iff.mpr hu
    obtain ⟨ha, hb, hc⟩ := add_entry_not_in_use_fields db e hu2
    rw [ha, hb]
    exact ⟨h1, alKeys_nodup_alInsert _ _ _ h2⟩

theorem buildDb_nodup_keys (n : Nat) (l : List DeviceEntry) :
    (alKeys (buildDb n l).entries).Nodup ∧
    (alKeys (buildDb n l).unused).Nodup := by
  suffices hgen : ∀ (ls : List DeviceEntry) (db : Device),
      (alKeys db.entries).Nodup → (alKeys db.unused).Nodup →
      (alKeys (ls.foldl Device.add_entry db).entries).Nodup ∧
      (alKeys (ls.foldl Device.add_entry db).unused).Nodup by
    exact hgen l (Device.init n) List.nodup_nil List.nodup_nil
  intro ls
  induction ls with
  | nil => exact fun db h1 h2 => ⟨h1, h2⟩
  | cons e rest ih =>
    intro db h1 h2
    obtain ⟨g1, g2⟩ := add_entry_nodup_keys db e h1 h2
    exact ih _ g1 g2

/-- C2 is false as stated: `add_entry` never removes a slot from the
opposite map, so inserting slot 8 as in-use and then as not-in-use leaves
slot 8 present in both `entries` and `unused` — the key sets are not
disjoint and the slot stores two entries. -/
theorem c2_counterexample :
    (8 : Int) ∈ alKeys c2Db.entries ∧ (8 : Int) ∈ alKeys c2Db.unused :=
  ⟨by decide, by decide⟩

/-- C2 (amended): over any `add_entry` insertion sequence from an empty
database, the union of the `entries` and `unused` key sets equals
`knownSlots`, one insertion grows `knownSlots` by at most one, and two
insertions at the same slot with the same in-use flag leave exactly one
entry at that slot in the corresponding map, the later one winning.
Disjointness of the two key sets, however, only holds when no slot is
re-inserted with the opposite flag. -/
theorem c2_amended_insert_invariants (n : Nat) (l : List DeviceEntry) :
    (∀ x : Int, (x ∈ alKeys (buildDb n l).entries ∨ x ∈ alKeys (buildDb n l).unused)
      ↔ x ∈ (buildDb n l).mem_locs) ∧
    (∀ e : DeviceEntry,
      ((buildDb n l).add_entry e).mem_locs.length ≤ (buildDb n l).mem_locs.length + 1) ∧
    (∀ e1 e2 : DeviceEntry, e1.mem_loc = e2.mem_loc →
      e1.db_flags.in_use = true → e2.db_flags.in_use = true →
      alLookup (((buildDb n l).add_entry e1).add_entry e2).entries e2.mem_loc = some e2 ∧
      (((buildDb n l).add_entry e1).add_entry e2).entries.countP
        (fun p => decide (p.1 = e2.mem_loc)) = 1) ∧
    (∀ e1 e2 : DeviceEntry, e1.mem_loc = e2.mem_loc →
      e1.db_flags.in_use = false → e2.db_flags.in_use = false →
      alLookup (((buildDb n l).add_entry e1).add_entry e2).unused e2.mem_loc = some e2 ∧
      (((buildDb n l).add_entry e1).add_entry e2).unused.countP
        (fun p => decide (p.1 = e2.mem_loc)) = 1) := by
  refine ⟨?_, ?_, ?_, ?_⟩
  · exact foldl_add_entry_union l (Device.init n) (by intro x; simp [Device.init, alKeys])
  · intro e
    by_cases hu : e.db_flags.in_use = true
    · rw [(add_entry_in_use_fields _ e hu).2.2]
      exact setInsert_length _ _
    · rw [(add_entry_not_in_use_fields _ e (Bool.eq_false_iff.mpr hu)).2.2]
      exact setInsert_length _ _
  · intro e1 e2 hm hu1 hu2
    obtain ⟨ha, hb, hc⟩ := add_entry_in_use_fields (buildDb n l) e1 hu1
    obtain ⟨hd, he, hf⟩ := add_entry_in_use_fields ((buildDb n l).add_entry e1) e2 hu2
    rw [hd, ha, hm]
    have hndX : (alKeys (alInsert (alInsert (buildDb n l).entries e2.mem_loc e1)
        e2.mem_loc e2)).Nodup :=
      alKeys_nodup_alInsert _ _ _
        (alKeys_nodup_alInsert _ _ _ (buildDb_nodup_keys n l).1)
    have hmemX : e2.mem_loc ∈ alKeys (alInsert (alInsert (buildDb n l).entries
        e2.mem_loc e1) e2.mem_loc e2) :=
      (mem_alKeys_alInsert _ _ _ _).mpr (Or.inr rfl)
    exact ⟨alLookup_alInsert_self _ _ _, countP_keys_one _ _ hndX hmemX⟩
  · intro e1 e2 hm hu1 hu2
    obtain ⟨ha, hb, hc⟩ := add_entry_not_in_use_fields (buildDb n l) e1 hu1
    obtain ⟨hd, he, hf⟩ := add_entry_not_in_use_fields ((buildDb n l).add_entry e1) e2 hu2
    rw [he, hb, hm]
    have hndX : (alKeys (alInsert (alInsert (buildDb n l).unused e2.mem_loc e1)
        e2.mem_loc e2)).Nodup :=
      alKeys_nodup_alInsert _ _ _
        (alKeys_nodup_alInsert _ _ _ (buildDb_nodup_keys n l).2)
    have hmemX : e2.mem_loc ∈ alKeys (alInsert (alInsert (buildDb n l).unused
        e2.mem_loc e1) e2.mem_loc e2) :=
      (mem_alKeys_alInsert _ _ _ _).mpr (Or.inr rfl)
    exact ⟨alLookup_alInsert_self _ _ _, countP_keys_one _ _ hndX hmemX⟩

theorem c2_amended_insert_invariants_witness :
    alLookup (((buildDb 5 [⟨1, 1, 8, ⟨true, false, false⟩, []⟩]).add_entry
        ⟨2, 2, 16, ⟨true, false, false⟩, [9]⟩).add_entry
        (⟨2, 2, 16, ⟨true, false, false⟩, [1]⟩ : DeviceEntry)).entries 16 =
      some ⟨2, 2, 16, ⟨true, false, false⟩, [1]⟩ :=
  ((c2_amended_insert_invariants 5 [⟨1, 1, 8, ⟨true, false, false⟩, []⟩]).2.2.1
    ⟨2, 2, 16, ⟨true, false, false⟩, [9]⟩ ⟨2, 2, 16, ⟨true, false, false⟩, [1]⟩
    rfl rfl rfl).1

theorem removeFirstAddr_subset (rs : List DeviceEntry) (a : Nat)
    (x : DeviceEntry) (h : x ∈ removeFirstAddr rs a) : x ∈ rs := by
  induction rs with
  | nil => simp [removeFirstAddr] at h
  | cons r rest ih =>
    unfold removeFirstAddr at h
    split at h
    · exact List.mem_cons_of_mem r h
    · rcases List.mem_cons.mp h with h | h
      · exact h ▸ List.mem_cons_self r rest
      · exact List.mem_cons_of_mem r (ih h)

theorem add_entry_groups_in_use (db : Device) (e : DeviceEntry)
    (hu : e.db_flags.in_use = true) :
    (db.add_entry e).groups = db.groups ∨
    (e.db_flags.is_controller = true ∧
      (db.add_entry e).groups = alInsert db.groups e.group
        (((alLookup db.groups e.group).getD []) ++ [e])) := by
  unfold Device.add_entry
  rw [if_pos hu]
  dsimp only
  split
  · rename_i hic
    split
    · exact Or.inl rfl
    · exact Or.inr ⟨hic, rfl⟩
  · exact Or.inl rfl

theorem add_entry_groups_not_in_use (db : Device) (e : DeviceEntry)
    (hu : e.db_flags.in_use = false) :
    (db.add_entry e).groups = db.groups ∨
    (db.add_entry e).groups = alInsert db.groups e.group
      (removeFirstAddr ((alLookup db.groups e.group).getD []) e.addr) := by
  unfold Device.add_entry
  rw [if_neg (by rw [hu]; exact Bool.false_ne_true)]
  dsimp only
  split
  · exact Or.inr rfl
  · exact Or.inl rfl

theorem add_entry_groupsInv (db : Device) (e : DeviceEntry)
    (h : groupsInv db) : groupsInv (db.add_entry e) := by
  obtain ⟨hg, hu⟩ := h
  by_cases huse : e.db_flags.in_use = true
  · obtain ⟨ha, hb, hc⟩ := add_entry_in_use_fields db e huse
    rcases add_entry_groups_in_use db e huse with hgr | ⟨hic, hgr⟩
    · exact ⟨fun g rs hrs => hg g rs (hgr ▸ hrs), fun p hp => hu p (hb ▸ hp)⟩
    · refine ⟨?_, fun p hp => hu p (hb ▸ hp)⟩
      intro g rs hrs
      rw [hgr] at hrs
      by_cases hgg : g = e.group
      · rw [hgg, alLookup_alInsert_self] at hrs
        have hrs2 : rs = ((alLookup db.groups e.group).getD []) ++ [e] :=
          (Option.some.inj hrs).symm
        subst hrs2
        intro x hx
        rcases List.mem_append.mp hx with hx | hx
        · cases hrs0 : alLookup db.groups e.group with
          | none => rw [hrs0] at hx; simp at hx
          | some rs0 =>
            rw [hrs0] at hx
            have hres := hg e.group rs0 hrs0 x hx
            exact ⟨hres.1, by rw [hgg]; exact hres.2.1, hres.2.2⟩
        · simp only [List.mem_singleton] at hx
          subst hx
          exact ⟨hic, hgg.symm, huse⟩
      · rw [alLookup_alInsert_ne _ _ _ _ hgg] at hrs
        exact hg g rs hrs
  · have huse2 : e.db_flags.in_use = false := Bool.eq_false_iff.mpr huse
    obtain ⟨ha, hb, hc⟩ := add_entry_not_in_use_fields db e huse2
    have hunew : ∀ p ∈ (db.add_entry e).unused, p.2.db_flags.in_use = false := by
      intro p hp
      rw [hb] at hp
      rcases mem_alInsert _ _ _ _ hp with hp | hp
      · rw [hp]
        exact huse2
      · exact hu p hp
    rcases add_entry_groups_not_in_use db e huse2 with hgr | hgr
    · exact ⟨fun g rs hrs => hg g rs (hgr ▸ hrs), hunew⟩
    · refine ⟨?_, hunew⟩
      intro g rs hrs
      rw [hgr] at hrs
      by_cases hgg : g = e.group
      · rw [hgg, alLookup_alInsert_self] at hrs
        have hrs2 : rs = removeFirstAddr ((alLookup db.groups e.group).getD []) e.addr :=
          (Option.some.inj hrs).symm
        subst hrs2
        intro x hx
        have hx2 := removeFirstAddr_subset _ _ _ hx
        cases hrs0 : alLookup db.groups e.group with
        | none => rw [hrs0] at hx2; simp at hx2
        | some rs0 =>
          rw [hrs0] at hx2
          have hres := hg e.group rs0 hrs0 x hx2
          exact ⟨hres.1, by rw [hgg]; exact hres.2.1, hres.2.2⟩
      · rw [alLookup_alInsert_ne _ _ _ _ hgg] at hrs
        exact hg g rs hrs

theorem buildDb_groupsInv (n : Nat) (l : List DeviceEntry) :
    groupsInv (buildDb n l) := by
  suffices hgen : ∀ (ls : List DeviceEntry) (db : Device), groupsInv db →
      groupsInv (ls.foldl Device.add_entry db) by
    refine hgen l (Device.init n) ⟨?_, ?_⟩
    · intro g rs hrs
      simp [Device.init, alLookup_nil] at hrs
    · intro p hp
      simp [Device.init] at hp
  intro ls
  induction ls with
  | nil => exact fun db h => h
  | cons e rest ih => exact fun db h => ih _ (add_entry_groupsInv db e h)

/-- C3 is false as stated: after the overwrite, `groups[1]` still lists
the original controller entry, but that entry is no longer present in
`entries` (slot 8 now stores the responder entry), so a group-list member
need not exist in `entries`. -/
theorem c3_counterexample :
    alLookup c3Db.groups 1 = some [⟨1, 1, 8, ⟨true, true, false⟩, []⟩] ∧
    (⟨1, 1, 8, ⟨true, true, false⟩, []⟩ : DeviceEntry) ∉ c3Db.entries.map Prod.snd :=
  ⟨by decide, by decide⟩

/-- C3 (amended): in every database built through the local-insert path,
every entry of `groups[g]` has role controller, group g and the in-use
flag set, and no entry stored in `unused` ever appears in a group list;
membership of a group-list element in `entries`, however, can be lost
when a later insertion overwrites its slot. -/
theorem c3_amended_group_index (n : Nat) (l : List DeviceEntry) :
    (∀ g rs, alLookup (buildDb n l).groups g = some rs →
      ∀ e ∈ rs, e.db_flags.is_controller = true ∧ e.group = g ∧
        e.db_flags.in_use = true) ∧
    (∀ p ∈ (buildDb n l).unused, ∀ g rs,
      alLookup (buildDb n l).groups g = some rs → p.2 ∉ rs) := by
  obtain ⟨hg, hu⟩ := buildDb_groupsInv n l
  refine ⟨hg, ?_⟩
  intro p hp g rs hrs hmem
  have h1 := (hg g rs hrs p.2 hmem).2.2
  have h2 := hu p hp
  rw [h1] at h2
  exact Bool.noConfusion h2

theorem c3_amended_group_index_witness :
    ∀ e ∈ [(⟨1, 1, 8, ⟨true, true, false⟩, []⟩ : DeviceEntry)],
      e.db_flags.is_controller = true ∧ e.group = 1 ∧ e.db_flags.in_use = true :=
  (c3_amended_group_index 5 [⟨1, 1, 8, ⟨true, true, false⟩, []⟩]).1 1
    [⟨1, 1, 8, ⟨true, true, false⟩, []⟩] (by decide)

theorem foldl_add_entry_const (l : List DeviceEntry) (db : Device) :
    (l.foldl Device.add_entry db).addr = db.addr ∧
    (l.foldl Device.add_entry db).delta = db.delta ∧
    (l.foldl Device.add_entry db).pending = db.pending := by
  induction l generalizing db with
  | nil => exact ⟨rfl, rfl, rfl⟩
  | cons e rest ih =>
    obtain ⟨i1, i2, i3⟩ := ih (db.add_entry e)
    exact ⟨i1.trans (add_entry_addr db e), i2.trans (add_entry_delta db e),
      i3.trans (add_entry_pending db e)⟩

theorem foldl_add_entry_in_use_list (l : List DeviceEntry) (db : Device)
    (hall : ∀ e ∈ l, e.db_flags.in_use = true)
    (hfresh : ∀ e ∈ l, e.mem_loc ∉ alKeys db.entries)
    (hnd : (l.map DeviceEntry.mem_loc).Nodup) :
    (l.foldl Device.add_entry db).entries =
      db.entries ++ l.map (fun e => (e.mem_loc, e)) ∧
    (l.foldl Device.add_entry db).unused = db.unused := by
  induction l generalizing db with
  | nil => exact ⟨(List.append_nil db.entries).symm, rfl⟩
  | cons e rest ih =>
    have hue : e.db_flags.in_use = true := hall e (List.mem_cons_self e rest)
    obtain ⟨ha, hb, hc⟩ := add_entry_in_use_fields db e hue
    have hstep : (db.add_entry e).entries = db.entries ++ [(e.mem_loc, e)] := by
      rw [ha, alInsert_of_not_mem _ _ _ (hfresh e (List.mem_cons_self e rest))]
    simp only [List.map_cons, List.nodup_cons] at hnd
    have hfresh2 : ∀ x ∈ rest, x.mem_loc ∉ alKeys (db.add_entry e).entries := by
      intro x hx hc2
      rw [hstep, alKeys_append] at hc2
      rcases List.mem_append.mp hc2 with hc2 | hc2
      · exact hfresh x (List.mem_cons_of_mem e hx) hc2
      · simp only [alKeys, List.map_cons, List.map_nil, List.mem_singleton] at hc2
        exact hnd.1 (hc2 ▸ List.mem_map_of_mem DeviceEntry.mem_loc hx)
    obtain ⟨i1, i2⟩ := ih (db.add_entry e)
      (fun x hx => hall x (List.mem_cons_of_mem e hx)) hfresh2 hnd.2
    constructor
    · rw [List.foldl_cons, i1, hstep, List.append_assoc]
      rfl
    · rw [List.foldl_cons, i2, hb]

theorem foldl_add_entry_not_in_use_list (l : List DeviceEntry) (db : Device)
    (hall : ∀ e ∈ l, e.db_flags.in_use = false)
    (hfresh : ∀ e ∈ l, e.mem_loc ∉ alKeys db.unused)
    (hnd : (l.map DeviceEntry.mem_loc).Nodup) :
    (l.foldl Device.add_entry db).entries = db.entries ∧
    (l.foldl Device.add_entry db).unused =
      db.unused ++ l.map (fun e => (e.mem_loc, e)) := by
  induction l generalizing db with
  | nil => exact ⟨rfl, (List.append_nil db.unused).symm⟩
  | cons e rest ih =>
    have hue : e.db_flags.in_use = false := hall e (List.mem_cons_self e rest)
    obtain ⟨ha, hb, hc⟩ := add_entry_not_in_use_fields db e hue
    have hstep : (db.add_entry e).unused = db.unused ++ [(e.mem_loc, e)] := by
      rw [hb, alInsert_of_not_mem _ _ _ (hfresh e (List.mem_cons_self e rest))]
    simp only [List.map_cons, List.nodup_cons] at hnd
    have hfresh2 : ∀ x ∈ rest, x.mem_loc ∉ alKeys (db.add_entry e).unused := by
      intro x hx hc2
      rw [hstep, alKeys_append] at hc2
      rcases List.mem_append.mp hc2 with hc2 | hc2
      · exact hfresh x (List.mem_cons_of_mem e hx) hc2
      · simp only [alKeys, List.map_cons, List.map_nil, List.mem_singleton] at hc2
        exact hnd.1 (hc2 ▸ List.mem_map_of_mem DeviceEntry.mem_loc hx)
    obtain ⟨i1, i2⟩ := ih (db.add_entry e)
      (fun x hx => hall x (List.mem_cons_of_mem e hx)) hfresh2 hnd.2
    constructor
    · rw [List.foldl_cons, i1, ha]
    · rw [List.foldl_cons, i2, hstep, List.append_assoc]
      rfl

/-- C7 is false as stated: the round trip rebuilds `groups` from the
serialized `used` list, so the stale controller entry that the original
database still lists under `groups[1]` is absent after
`from_json(to_json(db))` — the `groups` components differ. -/
theorem c7_counterexample :
    (Device.from_json c7Db.to_json).groups ≠ c7Db.groups := by
  decide

/-- C7 (amended): for a database whose `entries` and `unused` maps are
well formed (keys are the entries' slot addresses, duplicate free, with
in-use flags matching the map), `from_json(to_json(db))` rebuilds
`entries`, `unused`, `delta` and `addr` exactly; `groups` is re-derived
from the used list and can differ from the original's stale index (see
the counterexample). -/
theorem c7_amended_roundtrip (db : Device)
    (h1 : ∀ p ∈ db.entries, p.2.mem_loc = p.1 ∧ p.2.db_flags.in_use = true)
    (h2 : ∀ p ∈ db.unused, p.2.mem_loc = p.1 ∧ p.2.db_flags.in_use = false)
    (hnd1 : (alKeys db.entries).Nodup) (hnd2 : (alKeys db.unused).Nodup) :
    (Device.from_json db.to_json).entries = db.entries ∧
    (Device.from_json db.to_json).unused = db.unused ∧
    (Device.from_json db.to_json).delta = db.delta ∧
    (Device.from_json db.to_json).addr = db.addr := by
  have hmap1 : (db.entries.map Prod.snd).map DeviceEntry.mem_loc = alKeys db.entries := by
    rw [List.map_map]
    apply List.map_congr_left
    intro p hp
    exact (h1 p hp).1
  have hmap2 : (db.unused.map Prod.snd).map DeviceEntry.mem_loc = alKeys db.unused := by
    rw [List.map_map]
    apply List.map_congr_left
    intro p hp
    exact (h2 p hp).1
  have hrebuild1 : (db.entries.map Prod.snd).map (fun e => (e.mem_loc, e)) = db.entries := by
    rw [List.map_map]
    have : db.entries.map ((fun e => (e.mem_loc, e)) ∘ Prod.snd) =
        db.entries.map id := by
      apply List.map_congr_left
      intro p hp
      show (p.2.mem_loc, p.2) = p
      rw [(h1 p hp).1]
    rw [this, List.map_id]
  have hrebuild2 : (db.unused.map Prod.snd).map (fun e => (e.mem_loc, e)) = db.unused := by
    rw [List.map_map]
    have : db.unused.map ((fun e => (e.mem_loc, e)) ∘ Prod.snd) =
        db.unused.map id := by
      apply List.map_congr_left
      intro p hp
      show (p.2.mem_loc, p.2) = p
      rw [(h2 p hp).1]
    rw [this, List.map_id]
  set obj0 : Device := { Device.init db.to_json.address with delta := db.to_json.delta }
    with hobj0
  have hstage1 := foldl_add_entry_in_use_list (db.to_json.used) obj0
    (by
      intro e he
      simp only [Device.to_json, List.mem_map] at he
      obtain ⟨p, hp, rfl⟩ := he
      exact (h1 p hp).2)
    (by
      intro e he hc
      simp [hobj0, Device.init, alKeys] at hc)
    (by
      show ((db.entries.map Prod.snd).map DeviceEntry.mem_loc).Nodup
      rw [hmap1]
      exact hnd1)
  have hstage2 := foldl_add_entry_not_in_use_list (db.to_json.unused)
    (db.to_json.used.foldl Device.add_entry obj0)
    (by
      intro e he
      simp only [Device.to_json, List.mem_map] at he
      obtain ⟨p, hp, rfl⟩ := he
      exact (h2 p hp).2)
    (by
      intro e he hc
      rw [hstage1.2] at hc
      simp [hobj0, Device.init, alKeys] at hc)
    (by
      show ((db.unused.map Prod.snd).map DeviceEntry.mem_loc).Nodup
      rw [hmap2]
      exact hnd2)
  have hform : Device.from_json db.to_json =
      db.to_json.unused.foldl Device.add_entry
        (db.to_json.used.foldl Device.add_entry obj0) := rfl
  obtain ⟨hc1, hc2, hc3⟩ := foldl_add_entry_const (db.to_json.unused)
    (db.to_json.used.foldl Device.add_entry obj0)
  obtain ⟨hd1, hd2, hd3⟩ := foldl_add_entry_const (db.to_json.used) obj0
  refine ⟨?_, ?_, ?_, ?_⟩
  · rw [hform, hstage2.1, hstage1.1]
    show obj0.entries ++ (db.entries.map Prod.snd).map (fun e => (e.mem_loc, e)) =
      db.entries
    rw [hrebuild1]
    rfl
  · rw [hform, hstage2.2, hstage1.2]
    show obj0.unused ++ (db.unused.map Prod.snd).map (fun e => (e.mem_loc, e)) =
      db.unused
    rw [hrebuild2]
    rfl
  · rw [hform, hc2, hd2]
    rfl
  · rw [hform, hc1, hd1]
    rfl

theorem c7_amended_roundtrip_witness :
    (Device.from_json c7Wdb.to_json).entries = c7Wdb.entries ∧
    (Device.from_json c7Wdb.to_json).unused = c7Wdb.unused ∧
    (Device.from_json c7Wdb.to_json).delta = c7Wdb.delta :=
  have h := c7_amended_roundtrip c7Wdb (by decide) (by decide) (by decide) (by decide)
  ⟨h.1, h.2.1, h.2.2.1⟩

theorem stepStim_start (db0 : Device) (infl : Option (Nat × HandlerData))
    (r : Req) (i : Nat) (db1 : Device) (m : OutMsg) (k : HandlerData)
    (hp : db0.pending = []) (h1 : runReq db0 r = AddResult.sent db1 m k) :
    stepStim ⟨db0, infl⟩ (r.toStim i) = (⟨db1, some (i, k)⟩, [TraceEv.send i m]) := by
  cases r with
  | add a g ic d =>
    simp only [runReq] at h1
    unfold stepStim Req.toStim Device.add_on_device
    dsimp only
    rw [if_pos hp, h1]
  | del e =>
    simp only [runReq] at h1
    unfold stepStim Req.toStim
    dsimp only
    rw [if_pos hp, h1]

theorem stepStim_queued (db1 : Device) (infl : Option (Nat × HandlerData))
    (r : Req) (i : Nat) (hne : db1.pending ≠ []) :
    stepStim ⟨db1, infl⟩ (r.toStim i) =
      (⟨{ db1 with pending := db1.pending ++ [r.toCont i] }, infl⟩, []) := by
  cases r with
  | add a g ic d =>
    unfold stepStim Req.toStim Device.add_on_device Req.toCont
    dsimp only
    rw [if_neg hne]
  | del e =>
    unfold stepStim Req.toStim Req.toCont
    dsimp only
    rw [if_neg hne]

theorem runContOf_sent (db : Device) (r : Req) (i : Nat) (db4 : Device)
    (m : OutMsg) (k : HandlerData)
    (h : runReq db r = AddResult.sent db4 m k) :
    runContOf db (r.toCont i) = (db4, [TraceEv.send i m], some (i, k)) := by
  cases r with
  | add a g ic d =>
    simp only [runReq] at h
    unfold runContOf Req.toCont
    dsimp only
    rw [h]
  | del e =>
    simp only [runReq] at h
    unfold runContOf Req.toCont
    dsimp only
    rw [h]

theorem runReq_sent_pending (db db1 : Device) (r : Req) (m : OutMsg)
    (k : HandlerData) (hs : runReq db r = AddResult.sent db1 m k) :
    db1.pending = if db.pending = [] then [QItem.marker] else db.pending := by
  cases r with
  | add a g ic d => exact impl_sent_pending db db1 a g ic d m k hs
  | del e =>
    simp only [runReq] at hs
    unfold Device.delete_on_device_impl at hs
    dsimp only at hs
    simp only [AddResult.sent.injEq] at hs
    rw [← hs.1, pushMarker_pending]

/-- C6: a pair of add or delete requests issued back to back without
awaiting the first's completion.  Provided the first request starts an
exchange, then for *any* second request — add or delete — the second is
appended to `_pending` as a continuation and is not started: after both
requests only the first write has reached the transport and the queue
holds the marker plus the queued continuation.  Once the transport
reports the first exchange (with any followup) complete, `done_cb` pops
the marker and invokes the queued continuation, so the second request's
remote write reaches the transport strictly after the first exchange's
completion; at most one exchange is ever in flight. -/
theorem c6_queue_serialization
    (db0 db1 : Device) (m1 : OutMsg) (k1 : HandlerData) (r1 : Req)
    (hp : db0.pending = [])
    (h1 : runReq db0 r1 = AddResult.sent db1 m1 k1) :
    (∀ r2 : Req,
      (runStims ⟨db0, none⟩ [r1.toStim 1, r2.toStim 2]).2 = [TraceEv.send 1 m1] ∧
      (runStims ⟨db0, none⟩ [r1.toStim 1, r2.toStim 2]).1.db.pending =
        [QItem.marker, r2.toCont 2]) ∧
    (∀ (r2 : Req) (db2 db4 : Device) (m2 : OutMsg) (k2 : HandlerData),
      db2 = { Device.commitAdd
          { db1 with pending := db1.pending ++ [r2.toCont 2] } k1
        with pending := [r2.toCont 2] } →
      runReq db2 r2 = AddResult.sent db4 m2 k2 →
      (runStims ⟨db0, none⟩
          [r1.toStim 1, r2.toStim 2, Stim.complete, Stim.complete]).2 =
        [TraceEv.send 1 m1, TraceEv.exchDone 1, TraceEv.send 2 m2,
          TraceEv.exchDone 2, TraceEv.onDone 2 true]) := by
  have hpend1 : db1.pending = [QItem.marker] := by
    rw [runReq_sent_pending db0 db1 r1 m1 k1 h1, if_pos hp]
  have hstep1 := stepStim_start db0 none r1 1 db1 m1 k1 hp h1
  constructor
  · intro r2
    have hstep2 := stepStim_queued db1 (some (1, k1)) r2 2 (by rw [hpend1]; simp)
    constructor
    · simp [runStims, hstep1, hstep2]
    · simp [runStims, hstep1, hstep2, hpend1]
  · intro r2 db2 db4 m2 k2 hdb2 h2
    dsimp only at hdb2
    have hstep2 := stepStim_queued db1 (some (1, k1)) r2 2 (by rw [hpend1]; simp)
    have hpc1 : (Device.commitAdd
        { db1 with pending := db1.pending ++ [r2.toCont 2] } k1).pending =
        QItem.marker :: [r2.toCont 2] := by
      rw [commitAdd_pending]
      show db1.pending ++ [r2.toCont 2] = _
      rw [hpend1]
      rfl
    have hrc : runContOf db2 (r2.toCont 2) =
        (db4, [TraceEv.send 2 m2], some (2, k2)) :=
      runContOf_sent db2 r2 2 db4 m2 k2 h2
    have hstep3 : stepStim
        ⟨{ db1 with pending := db1.pending ++ [r2.toCont 2] },
          some (1, k1)⟩ Stim.complete =
        (⟨db4, some (2, k2)⟩, [TraceEv.exchDone 1, TraceEv.send 2 m2]) := by
      unfold stepStim
      dsimp only
      rw [hpc1]
      dsimp only
      rw [← hdb2, hrc]
    have hp2 : db2.pending = [r2.toCont 2] := by
      rw [hdb2]
    have hpend4 : db4.pending = [r2.toCont 2] := by
      rw [runReq_sent_pending db2 db4 r2 m2 k2 h2, hp2]
      simp
    have hpc2 : (db4.commitAdd k2).pending = r2.toCont 2 :: [] := by
      rw [commitAdd_pending, hpend4]
    have hstep4 : stepStim ⟨db4, some (2, k2)⟩ Stim.complete =
        (⟨{ db4.commitAdd k2 with pending := [] }, none⟩,
          [TraceEv.exchDone 2, TraceEv.onDone 2 true]) := by
      unfold stepStim
      dsimp only
      rw [hpc2]
    simp [runStims, hstep1, hstep2, hstep3, hstep4]

theorem c6_queue_serialization_witness :
    (runStims ⟨c6Db, none⟩ [(Req.add 1 1 false []).toStim 1,
        (Req.del ⟨9, 9, 0x0ff8, ⟨true, false, true⟩, [0, 0, 0]⟩).toStim 2]).1.db.pending =
      [QItem.marker,
        (Req.del ⟨9, 9, 0x0ff8, ⟨true, false, true⟩, [0, 0, 0]⟩).toCont 2] ∧
    (runStims ⟨c6Db, none⟩ [(Req.add 1 1 false []).toStim 1,
        (Req.del ⟨9, 9, 0x0ff8, ⟨true, false, true⟩, [0, 0, 0]⟩).toStim 2,
        Stim.complete, Stim.complete]).2 =
      [TraceEv.send 1 ⟨5, 47, 0, ⟨1, 1, 0x0fe0, ⟨true, false, false⟩, []⟩⟩,
       TraceEv.exchDone 1,
       TraceEv.send 2 ⟨5, 47, 0, ⟨9, 9, 0x0ff8, ⟨false, false, true⟩, [0, 0, 0]⟩⟩,
       TraceEv.exchDone 2, TraceEv.onDone 2 true] :=
  have h := c6_queue_serialization c6Db _ _ _ (Req.add 1 1 false []) rfl rfl
  ⟨(h.1 (Req.del ⟨9, 9, 0x0ff8, ⟨true, false, true⟩, [0, 0, 0]⟩)).2,
   h.2 (Req.del ⟨9, 9, 0x0ff8, ⟨true, false, true⟩, [0, 0, 0]⟩) _ _ _ _ rfl rfl⟩
